import Mathlib

/-!
# TxtIntr calculator: tangent / cotangent with pole detection

A shallow embedding of `src/calculator/main.cpp`.

The program computes on C++ `double`s.  They are modelled exactly as IEEE-754
binary64 values: NaN, the two infinities, and the finite values
`(-1)^s * m * 2^e` with `m < 2^53` and `-1074 ≤ e ≤ 971`.  Multiplication,
division, addition and subtraction round to nearest, ties to even; `fmod`,
`fabs`, negation and `<` are exact.  `std::tan` on finite arguments is the math
library's approximation and is a parameter of the model.
-/

namespace TxtIntr

/-- An IEEE-754 binary64 value. `fin s m e` stands for `(-1)^s * m * 2^e`. -/
inductive F64 where
  | nan : F64
  | inf (s : Bool) : F64
  | fin (s : Bool) (m : Nat) (e : Int) : F64
  deriving DecidableEq, Repr

namespace F64

/-- Signed zero. -/
def zero (s : Bool) : F64 := fin s 0 (-1074)

/-- Number of binary digits of `n`, by halving at most `fuel` times. -/
def bitsAux : Nat → Nat → Nat
  | 0, _ => 0
  | fuel + 1, n => if n = 0 then 0 else bitsAux fuel (n / 2) + 1

/-- Number of binary digits of `n` (0 for 0). -/
def bits (n : Nat) : Nat := bitsAux n n

/-- Floor of the binary logarithm of `n / d`, for positive `n` and `d`. -/
def ilog2 (n d : Nat) : Int :=
  let t : Int := (bits n : Int) - (bits d : Int)
  if d * 2 ^ t.toNat ≤ n * 2 ^ (-t).toNat then t else t - 1

/-- Round half to even of the quotient `N / D`. -/
def rne (N D : Nat) : Nat :=
  let q := N / D
  let r := N % D
  if 2 * r < D then q
  else if 2 * r = D then (if q % 2 = 0 then q else q + 1)
  else q + 1

/-- Rounding to nearest, ties to even, of the value `(-1)^s * (n / d) * 2^e`
into binary64 (`d` positive). -/
def roundQ (s : Bool) (n d : Nat) (e : Int) : F64 :=
  if n = 0 then zero s
  else
    let E : Int := max (ilog2 n d + e - 52) (-1074)
    let q := rne (n * 2 ^ (e - E).toNat) (d * 2 ^ (E - e).toNat)
    if q = 2 ^ 53 then (if 971 < E + 1 then inf s else fin s (2 ^ 52) (E + 1))
    else if 971 < E then inf s
    else fin s q E

/-- Conversion of an integer to `double`. -/
def ofInt (i : Int) : F64 := roundQ (decide (i < 0)) i.natAbs 1 0

/-- A decimal literal `n / 10^k` of the source text. -/
def ofDec (n k : Nat) : F64 := roundQ false n (10 ^ k) 0

/-- Unary minus. -/
def neg : F64 → F64
  | nan => nan
  | inf s => inf (!s)
  | fin s m e => fin (!s) m e

/-- The function `std::fabs`. -/
def fabs : F64 → F64
  | nan => nan
  | inf _ => inf false
  | fin _ m e => fin false m e

/-- Product of two doubles. -/
def mul : F64 → F64 → F64
  | nan, _ => nan
  | _, nan => nan
  | inf s, inf t => inf (xor s t)
  | inf s, fin t m _ => if m = 0 then nan else inf (xor s t)
  | fin s m _, inf t => if m = 0 then nan else inf (xor s t)
  | fin s m e, fin t n f => roundQ (xor s t) (m * n) 1 (e + f)

/-- Quotient of two doubles. -/
def div : F64 → F64 → F64
  | nan, _ => nan
  | _, nan => nan
  | inf _, inf _ => nan
  | inf s, fin t _ _ => inf (xor s t)
  | fin s _ _, inf t => zero (xor s t)
  | fin s m e, fin t n f =>
    if n = 0 then (if m = 0 then nan else inf (xor s t))
    else roundQ (xor s t) m n (e - f)

/-- The integer `(-1)^s * m`. -/
def sInt (s : Bool) (m : Nat) : Int := if s then -(m : Int) else (m : Int)

/-- Sum of two doubles. -/
def add : F64 → F64 → F64
  | nan, _ => nan
  | _, nan => nan
  | inf s, inf t => if s = t then inf s else nan
  | inf s, fin _ _ _ => inf s
  | fin _ _ _, inf t => inf t
  | fin s m e, fin t n f =>
    let E := min e f
    let i : Int := sInt s (m * 2 ^ (e - E).toNat) + sInt t (n * 2 ^ (f - E).toNat)
    if i = 0 then zero (s && t) else roundQ (decide (i < 0)) i.natAbs 1 E

/-- Difference of two doubles. -/
def sub (x y : F64) : F64 := add x (neg y)

/-- The function `std::fmod`: the exact remainder, with the sign of the dividend. -/
def fmod : F64 → F64 → F64
  | nan, _ => nan
  | _, nan => nan
  | inf _, _ => nan
  | fin s m e, inf _ => fin s m e
  | fin s m e, fin _ n f =>
    if n = 0 then nan
    else
      let E := min e f
      roundQ s ((m * 2 ^ (e - E).toNat) % (n * 2 ^ (f - E).toNat)) 1 E

/-- The comparison `x < y` of two doubles (false when either is NaN). -/
def lt : F64 → F64 → Bool
  | nan, _ => false
  | _, nan => false
  | inf s, inf t => s && !t
  | inf s, fin _ _ _ => s
  | fin _ _ _, inf t => !t
  | fin s m e, fin t n f =>
    let E := min e f
    decide (sInt s (m * 2 ^ (e - E).toNat) < sInt t (n * 2 ^ (f - E).toNat))

/-- The rational value of a finite double (0 for NaN and the infinities). -/
def toRat : F64 → ℚ
  | fin s m e => (if s then -1 else 1) * (m : ℚ) * (2 : ℚ) ^ e
  | _ => 0

/-- The value `(n / d) * 2^e` handed to `roundQ`. -/
def qval (n d : Nat) (e : Int) : ℚ := (n : ℚ) / d * (2 : ℚ) ^ e

/-- Whether the double is finite. -/
def isFinite : F64 → Bool
  | fin _ _ _ => true
  | _ => false

end F64

open F64

/-! ## The program -/

/-- The constant `PI = 3.14159265358979323846` of the source. -/
def PI : F64 := ofDec 314159265358979323846 20

/-- The tolerance literal `1e-10`. -/
def tol : F64 := ofDec 1 10

/-- The function `std::tan`.  The C standard fixes its value at NaN and at the
infinities (NaN); on finite arguments it is the math library's approximation
`libm_tan`. -/
def tan (libm_tan : F64 → F64) : F64 → F64
  | nan => nan
  | inf _ => nan
  | fin s m e => libm_tan (fin s m e)

/-- Degrees to radians: `degrees * PI / 180.0`. -/
def degrees_to_radians (degrees : F64) : F64 :=
  div (mul degrees PI) (ofInt 180)

/-- Whether the angle (in radians) is treated as a pole of the tangent. -/
def is_tangent_undefined (angle_rad : F64) : Bool :=
  let normalized := fmod angle_rad PI
  lt (fabs (sub normalized (div PI (ofInt 2)))) tol ||
    lt (fabs (add normalized (div PI (ofInt 2)))) tol

/-- Whether the angle (in radians) is treated as a pole of the cotangent. -/
def is_cotangent_undefined (angle_rad : F64) : Bool :=
  let normalized := fmod angle_rad PI
  lt (fabs normalized) tol

/-- A piece of text written to a stream or put into an exception message. -/
inductive Tok where
  | str (s : String) : Tok
  | to_string (x : F64) : Tok
  | num (x : F64) : Tok
  | fixed6 (x : F64) : Tok
  | size (n : Nat) : Tok
  deriving DecidableEq, Repr

/-- The radian value the evaluation works on. -/
def angle_rad_of (angle : F64) (is_radians : Bool) : F64 :=
  if is_radians then angle else degrees_to_radians angle

/-- Tangent with pole handling; `Except.error` carries the message of the
thrown `std::runtime_error`. -/
def tangent (libm_tan : F64 → F64) (angle : F64) (is_radians : Bool) :
    Except (List Tok) F64 :=
  let angle_rad := angle_rad_of angle is_radians
  if is_tangent_undefined angle_rad then
    if is_radians then
      .error [.str "Тангенс не определен для угла ", .to_string angle,
        .str " радиан (π/2 + π*k)"]
    else
      .error [.str "Тангенс не определен для угла ", .to_string angle,
        .str " градусов (90° + 180°*k)"]
  else .ok (tan libm_tan angle_rad)

/-- Cotangent with pole handling. -/
def cotangent (libm_tan : F64 → F64) (angle : F64) (is_radians : Bool) :
    Except (List Tok) F64 :=
  let angle_rad := angle_rad_of angle is_radians
  if is_cotangent_undefined angle_rad then
    if is_radians then
      .error [.str "Котангенс не определен для угла ", .to_string angle,
        .str " радиан (π*k)"]
    else
      .error [.str "Котангенс не определен для угла ", .to_string angle,
        .str " градусов (180°*k)"]
  else .ok (div (ofInt 1) (tan libm_tan angle_rad))

/-- The text `print_help` writes to standard output. -/
def print_help : List Tok :=
  [.str "Использование:\n",
   .str "  calculator -o <операция> [операнды...] [-m <режим>]\n",
   .str "  calculator --operation <операция> [операнды...] --mode <режим>\n",
   .str "\nПоддерживаемые операции:\n",
   .str "  tangent     - тангенс\n",
   .str "  cotangent   - котангенс\n",
   .str "\nРежимы работы:\n",
   .str "  deg         - градусы (по умолчанию)\n",
   .str "  rad         - радианы\n",
   .str "\nКоличество операндов: 1\n",
   .str "\nПримеры:\n",
   .str "  calculator -o tangent 45\n",
   .str "  calculator --operation cotangent --mode rad 0.785\n",
   .str "  calculator -o tangent -m deg 60\n"]

/-- What a run leaves behind: the exit code and the text written to standard
output and to the error stream. -/
structure Outcome where
  code : Nat
  out : List Tok
  err : List Tok
  deriving DecidableEq, Repr

/-- The variables the argument loop of `main` fills in. -/
structure Args where
  operation : String
  mode : String
  operands : List F64
  deriving DecidableEq, Repr

/-- The values of the variables before the loop: `mode` defaults to `"deg"`. -/
def Args.init : Args := ⟨"", "deg", []⟩

/-- Result of the argument loop: it ran to the end, or `main` returned from
inside it. -/
inductive Parsed where
  | done (st : Args) : Parsed
  | exit (o : Outcome) : Parsed
  deriving DecidableEq, Repr

/-- The argument loop of `main` over `argv[1..]`.  `stod` is `std::stod`:
`none` when it throws. -/
def parseArgs (stod : String → Option F64) : List String → Args → Parsed
  | [], st => .done st
  | arg :: rest, st =>
    if arg = "-o" ∨ arg = "--operation" then
      match rest with
      | v :: rest1 => parseArgs stod rest1 { st with operation := v }
      | [] => .exit ⟨1, [], [.str "Ошибка: не указана операция после ", .str arg, .str "\n"]⟩
    else if arg = "-m" ∨ arg = "--mode" then
      match rest with
      | v :: rest1 =>
        if v ≠ "deg" ∧ v ≠ "rad" then
          .exit ⟨1, [], [.str "Ошибка: неверный режим. Используйте 'deg' или 'rad'", .str "\n"]⟩
        else parseArgs stod rest1 { st with mode := v }
      | [] => .exit ⟨1, [], [.str "Ошибка: не указан режим после ", .str arg, .str "\n"]⟩
    else if arg = "-h" ∨ arg = "--help" then
      .exit ⟨0, print_help, []⟩
    else
      match stod arg with
      | some x => parseArgs stod rest { st with operands := st.operands ++ [x] }
      | none => .exit ⟨1, [], [.str "Ошибка: неверный формат операнда: ", .str arg, .str "\n"]⟩

/-- The part of `main` after the argument loop: operand count, operation,
evaluation and printing. -/
def evaluate (libm_tan : F64 → F64) (st : Args) : Outcome :=
  match st.operands with
  | [angle] =>
    if st.operation = "" then
      ⟨1, print_help, [.str "Ошибка: не указана операция", .str "\n"]⟩
    else
      let is_radians := decide (st.mode = "rad")
      if st.operation = "tangent" then
        match tangent libm_tan angle is_radians with
        | .ok result =>
          ⟨0, [.str "tan(", .num angle, .str (if is_radians then " rad" else "°"),
               .str ") = ", .fixed6 result, .str "\n"], []⟩
        | .error what => ⟨1, [], [.str "Ошибка вычисления: "] ++ what ++ [.str "\n"]⟩
      else if st.operation = "cotangent" then
        match cotangent libm_tan angle is_radians with
        | .ok result =>
          ⟨0, [.str "cot(", .num angle, .str (if is_radians then " rad" else "°"),
               .str ") = ", .fixed6 result, .str "\n"], []⟩
        | .error what => ⟨1, [], [.str "Ошибка вычисления: "] ++ what ++ [.str "\n"]⟩
      else
        ⟨1, print_help, [.str "Ошибка: неизвестная операция: ", .str st.operation, .str "\n"]⟩
  | ops =>
    ⟨1, [], [.str "Ошибка: требуется ровно 1 операнд, получено ", .size ops.length, .str "\n"]⟩

/-- The program's `main` on the arguments `argv[1..]` (so `argc = args.length + 1`). -/
def main (libm_tan : F64 → F64) (stod : String → Option F64) (args : List String) : Outcome :=
  if args.length + 1 < 2 then ⟨1, print_help, []⟩
  else
    match parseArgs stod args Args.init with
    | .exit o => o
    | .done st => evaluate libm_tan st

/-- Whether an evaluation ended in a domain error. -/
def isError (r : Except (List Tok) F64) : Bool :=
  match r with
  | .error _ => true
  | .ok _ => false

/-- The math library's tangent is accurate at `x`: it returns a finite double
within `ε` of the real tangent of `x`. -/
def TanAccurateAt (libm_tan : F64 → F64) (x : F64) (ε : ℚ) : Prop :=
  isFinite (libm_tan x) = true ∧
    |((toRat (libm_tan x) : ℚ) : ℝ) - Real.tan ((toRat x : ℚ) : ℝ)| ≤ (ε : ℝ)

/-- A sample math-library tangent for instantiating the theorems: an odd
function with value `±1` on finite arguments. -/
def unitTan : F64 → F64
  | nan => nan
  | inf s => inf s
  | fin s _ _ => fin s 4503599627370496 (-52)

/-- The values of the binary64 format: NaN, the infinities, and the finite
values in canonical form. -/
def isDouble : F64 → Bool
  | nan => true
  | inf _ => true
  | fin _ m e => decide (m < 2 ^ 53 ∧ -1074 ≤ e ∧ e ≤ 971 ∧ (2 ^ 52 ≤ m ∨ e = -1074))

/-- The outcome of printing an evaluation: the result line and exit code 0, or
the caught domain error on the error stream and exit code 1. -/
def report (name : String) (angle : F64) (is_radians : Bool)
    (r : Except (List Tok) F64) : Outcome :=
  match r with
  | .ok result =>
    ⟨0, [.str name, .num angle, .str (if is_radians then " rad" else "°"),
         .str ") = ", .fixed6 result, .str "\n"], []⟩
  | .error what => ⟨1, [], [.str "Ошибка вычисления: "] ++ what ++ [.str "\n"]⟩

/-- The values the argument loop reads for `-m`/`--mode`, in order, up to the
point where the loop returns. -/
def modeValues (stod : String → Option F64) : List String → List String
  | [] => []
  | arg :: rest =>
    if arg = "-o" ∨ arg = "--operation" then
      match rest with
      | _ :: rest1 => modeValues stod rest1
      | [] => []
    else if arg = "-m" ∨ arg = "--mode" then
      match rest with
      | v :: rest1 => if v ≠ "deg" ∧ v ≠ "rad" then [v] else v :: modeValues stod rest1
      | [] => []
    else if arg = "-h" ∨ arg = "--help" then []
    else
      match stod arg with
      | some _ => modeValues stod rest
      | none => []

/-- The values given for `-m`/`--mode` before any help flag: the argument list
split the way the loop splits it (`-o` and `-m` take the next argument as their
value), whether or not the loop gets as far as reading them. -/
def givenModeValues : List String → List String
  | [] => []
  | arg :: rest =>
    if arg = "-o" ∨ arg = "--operation" then
      match rest with
      | _ :: rest1 => givenModeValues rest1
      | [] => []
    else if arg = "-m" ∨ arg = "--mode" then
      match rest with
      | v :: rest1 => v :: givenModeValues rest1
      | [] => []
    else if arg = "-h" ∨ arg = "--help" then []
    else givenModeValues rest

/-- The message of the domain error thrown by `tangent`. -/
def tangent_message (angle : F64) (is_radians : Bool) : List Tok :=
  [.str "Тангенс не определен для угла ", .to_string angle,
    .str (if is_radians then " радиан (π/2 + π*k)" else " градусов (90° + 180°*k)")]

/-- The message of the domain error thrown by `cotangent`. -/
def cotangent_message (angle : F64) (is_radians : Bool) : List Tok :=
  [.str "Котангенс не определен для угла ", .to_string angle,
    .str (if is_radians then " радиан (π*k)" else " градусов (180°*k)")]

/-- Two evaluations end the same way: the same number, or both a domain error. -/
def sameOutcome (a b : Except (List Tok) F64) : Prop :=
  match a, b with
  | .ok x, .ok y => x = y
  | .error _, .error _ => True
  | _, _ => False

namespace F64

/-! ## Rounding -/

theorem bitsAux_spec : ∀ (fuel n : Nat), n ≤ fuel → 0 < n →
    2 ^ (bitsAux fuel n - 1) ≤ n ∧ n < 2 ^ (bitsAux fuel n) := by
  intro fuel
  induction fuel with
  | zero => intro n h1 h2; omega
  | succ f ih =>
    intro n hle hpos
    have hn0 : n ≠ 0 := by omega
    simp only [bitsAux, hn0, if_false]
    by_cases h2 : n / 2 = 0
    · have hn1 : n = 1 := by omega
      subst hn1
      cases f <;> simp [bitsAux]
    · have hpos2 : 0 < n / 2 := Nat.pos_of_ne_zero h2
      obtain ⟨h3, h4⟩ := ih (n / 2) (by omega) hpos2
      have hb : 1 ≤ bitsAux f (n / 2) := by
        rcases Nat.eq_zero_or_pos (bitsAux f (n / 2)) with h0 | h0
        · rw [h0] at h4; omega
        · exact h0
      constructor
      · have : bitsAux f (n / 2) + 1 - 1 = (bitsAux f (n / 2) - 1) + 1 := by omega
        rw [this, pow_succ]
        omega
      · rw [pow_succ]
        omega

theorem bits_spec (n : Nat) (h : 0 < n) : 2 ^ (bits n - 1) ≤ n ∧ n < 2 ^ bits n :=
  bitsAux_spec n n (Nat.le_refl _) h

theorem bits_pos (n : Nat) (h : 0 < n) : 1 ≤ bits n := by
  rcases Nat.eq_zero_or_pos (bits n) with h0 | h0
  · have := (bits_spec n h).2
    rw [h0] at this
    omega
  · exact h0

theorem two_zpow_toNat (t : Int) :
    ((2 ^ t.toNat : Nat) : ℚ) / ((2 ^ (-t).toNat : Nat) : ℚ) = (2 : ℚ) ^ t := by
  rcases le_total 0 t with h | h
  · have h1 : (-t).toNat = 0 := Int.toNat_eq_zero.mpr (by omega)
    rw [h1]
    lift t to Nat using h
    simp
  · have h1 : t.toNat = 0 := Int.toNat_eq_zero.mpr h
    rw [h1]
    obtain ⟨k, rfl⟩ : ∃ k : Nat, t = -(k : Int) := ⟨(-t).toNat, by omega⟩
    simp


theorem bits_cast_bounds (n : Nat) (h : 0 < n) :
    (2 : ℚ) ^ ((bits n : Int) - 1) ≤ (n : ℚ) ∧ (n : ℚ) < (2 : ℚ) ^ (bits n : Int) := by
  obtain ⟨h1, h2⟩ := bits_spec n h
  have hb := bits_pos n h
  constructor
  · have : ((bits n : Int) - 1) = ((bits n - 1 : Nat) : Int) := by omega
    rw [this, zpow_natCast]
    exact_mod_cast h1
  · rw [zpow_natCast]
    exact_mod_cast h2

theorem ilog2_spec (n d : Nat) (hn : 0 < n) (hd : 0 < d) :
    (2 : ℚ) ^ (ilog2 n d) ≤ (n : ℚ) / d ∧ (n : ℚ) / d < (2 : ℚ) ^ (ilog2 n d + 1) := by
  obtain ⟨hn1, hn2⟩ := bits_cast_bounds n hn
  obtain ⟨hd1, hd2⟩ := bits_cast_bounds d hd
  have hdq : (0 : ℚ) < d := by exact_mod_cast hd
  have hnq : (0 : ℚ) < n := by exact_mod_cast hn
  set t : Int := (bits n : Int) - (bits d : Int) with ht
  have hup : (n : ℚ) / d < (2 : ℚ) ^ (t + 1) := by
    rw [div_lt_iff₀ hdq]
    have e1 : (2 : ℚ) ^ (t + 1) = (2 : ℚ) ^ (bits n : Int) / (2 : ℚ) ^ ((bits d : Int) - 1) := by
      rw [← zpow_sub₀ (by norm_num : (2 : ℚ) ≠ 0)]
      congr 1
      omega
    rw [e1, div_mul_eq_mul_div, lt_div_iff₀ (by positivity)]
    calc (n : ℚ) * (2 : ℚ) ^ ((bits d : Int) - 1) ≤ (n : ℚ) * d := by
          exact mul_le_mul_of_nonneg_left hd1 hnq.le
      _ < (2 : ℚ) ^ (bits n : Int) * d := by
          exact mul_lt_mul_of_pos_right hn2 hdq
  have hlo : (2 : ℚ) ^ (t - 1) ≤ (n : ℚ) / d := by
    rw [le_div_iff₀ hdq]
    have e1 : (2 : ℚ) ^ (t - 1) = (2 : ℚ) ^ ((bits n : Int) - 1) / (2 : ℚ) ^ (bits d : Int) := by
      rw [← zpow_sub₀ (by norm_num : (2 : ℚ) ≠ 0)]
      congr 1
      omega
    rw [e1, div_mul_eq_mul_div, div_le_iff₀ (by positivity)]
    calc (2 : ℚ) ^ ((bits n : Int) - 1) * d ≤ (n : ℚ) * d := by
          exact mul_le_mul_of_nonneg_right hn1 hdq.le
      _ ≤ (n : ℚ) * (2 : ℚ) ^ (bits d : Int) := by
          exact mul_le_mul_of_nonneg_left hd2.le hnq.le
  have hc : (d * 2 ^ t.toNat ≤ n * 2 ^ (-t).toNat) ↔ (2 : ℚ) ^ t ≤ (n : ℚ) / d := by
    rw [← two_zpow_toNat t]
    have hB : (0 : ℚ) < ((2 ^ (-t).toNat : Nat) : ℚ) := by positivity
    rw [div_le_div_iff₀ hB hdq]
    constructor
    · intro h
      have : ((d * 2 ^ t.toNat : Nat) : ℚ) ≤ ((n * 2 ^ (-t).toNat : Nat) : ℚ) := by exact_mod_cast h
      push_cast at this ⊢
      linarith
    · intro h
      have : ((d * 2 ^ t.toNat : Nat) : ℚ) ≤ ((n * 2 ^ (-t).toNat : Nat) : ℚ) := by
        push_cast at h ⊢
        linarith
      exact_mod_cast this
  unfold ilog2
  simp only []
  rw [← ht]
  split_ifs with h
  · exact ⟨hc.mp h, hup⟩
  · refine ⟨hlo, ?_⟩
    have : ¬ ((2 : ℚ) ^ t ≤ (n : ℚ) / d) := fun h2 => h (hc.mpr h2)
    have e : t - 1 + 1 = t := by omega
    rw [e]
    exact lt_of_not_le this

theorem rne_spec (N D : Nat) (hD : 0 < D) :
    |((rne N D : Nat) : ℚ) - (N : ℚ) / D| ≤ 1 / 2 := by
  have hDq : (0 : ℚ) < D := by exact_mod_cast hD
  have hdiv : (N : ℚ) / D = (N / D : Nat) + ((N % D : Nat) : ℚ) / D := by
    have h := Nat.div_add_mod N D
    have h2 : (N : ℚ) = (D : ℚ) * ((N / D : Nat) : ℚ) + ((N % D : Nat) : ℚ) := by
      exact_mod_cast h.symm
    rw [h2]
    field_simp
    ring
  have hr : N % D < D := Nat.mod_lt _ hD
  have hrq : ((N % D : Nat) : ℚ) < D := by exact_mod_cast hr
  have hr0 : (0 : ℚ) ≤ ((N % D : Nat) : ℚ) := by positivity
  unfold rne
  simp only []
  rw [hdiv]
  split_ifs with h1 h2 h3
  · have : (2 : ℚ) * ((N % D : Nat) : ℚ) < D := by exact_mod_cast h1
    rw [abs_le]
    constructor
    · have : ((N % D : Nat) : ℚ) / D ≤ 1 / 2 := by
        rw [div_le_iff₀ hDq]; linarith
      linarith
    · have : 0 ≤ ((N % D : Nat) : ℚ) / D := by positivity
      linarith
  · have : (2 : ℚ) * ((N % D : Nat) : ℚ) = D := by exact_mod_cast h2
    rw [abs_le]
    constructor
    · have : ((N % D : Nat) : ℚ) / D ≤ 1 / 2 := by
        rw [div_le_iff₀ hDq]; linarith
      linarith
    · have : 0 ≤ ((N % D : Nat) : ℚ) / D := by positivity
      linarith
  · have : (2 : ℚ) * ((N % D : Nat) : ℚ) = D := by exact_mod_cast h2
    rw [abs_le]
    push_cast
    constructor
    · have : ((N % D : Nat) : ℚ) / D ≤ 1 := by
        rw [div_le_iff₀ hDq]; linarith
      linarith
    · have : 1 / 2 ≤ ((N % D : Nat) : ℚ) / D := by
        rw [le_div_iff₀ hDq]; linarith
      linarith
  · have h4 : D < 2 * (N % D) := by omega
    have : (D : ℚ) < 2 * ((N % D : Nat) : ℚ) := by exact_mod_cast h4
    rw [abs_le]
    push_cast
    constructor
    · have : ((N % D : Nat) : ℚ) / D ≤ 1 := by
        rw [div_le_iff₀ hDq]; linarith
      linarith
    · have : 1 / 2 ≤ ((N % D : Nat) : ℚ) / D := by
        rw [le_div_iff₀ hDq]; linarith
      linarith

theorem rne_le (N D M : Nat) (hD : 0 < D) (h : N < M * D) : rne N D ≤ M := by
  have hq : N / D < M := (Nat.div_lt_iff_lt_mul hD).mpr h
  unfold rne
  simp only []
  split_ifs <;> omega

theorem rne_one (N : Nat) : rne N 1 = N := by
  simp [rne, Nat.mod_one]


theorem two_pos_q (e : Int) : (0 : ℚ) < (2 : ℚ) ^ e := zpow_pos (by norm_num) e

theorem scaled_quot (n d : Nat) (e E : Int) (hd : 0 < d) :
    ((n * 2 ^ (e - E).toNat : Nat) : ℚ) / ((d * 2 ^ (E - e).toNat : Nat) : ℚ)
      = qval n d e / (2 : ℚ) ^ E := by
  have h := two_zpow_toNat (e - E)
  have h2 : -(e - E) = E - e := by ring
  rw [h2] at h
  have hdq : (0 : ℚ) < d := by exact_mod_cast hd
  have hB : (0 : ℚ) < ((2 ^ (E - e).toNat : Nat) : ℚ) := by positivity
  have hE := two_pos_q E
  have h3 : ((n * 2 ^ (e - E).toNat : Nat) : ℚ) / ((d * 2 ^ (E - e).toNat : Nat) : ℚ)
      = (n : ℚ) / d * (((2 ^ (e - E).toNat : Nat) : ℚ) / ((2 ^ (E - e).toNat : Nat) : ℚ)) := by
    rw [Nat.cast_mul, Nat.cast_mul, mul_div_mul_comm]
  rw [h3, h, zpow_sub₀ (by norm_num : (2 : ℚ) ≠ 0)]
  unfold qval
  ring

theorem qval_pos (n d : Nat) (e : Int) (hn : 0 < n) (hd : 0 < d) : 0 < qval n d e := by
  have hdq : (0 : ℚ) < d := by exact_mod_cast hd
  have hnq : (0 : ℚ) < n := by exact_mod_cast hn
  unfold qval
  have := two_pos_q e
  positivity

theorem qval_log (n d : Nat) (e : Int) (hn : 0 < n) (hd : 0 < d) :
    (2 : ℚ) ^ (ilog2 n d + e) ≤ qval n d e ∧ qval n d e < (2 : ℚ) ^ (ilog2 n d + e + 1) := by
  obtain ⟨h1, h2⟩ := ilog2_spec n d hn hd
  have he := two_pos_q e
  unfold qval
  constructor
  · rw [zpow_add₀ (by norm_num : (2 : ℚ) ≠ 0)]
    exact mul_le_mul_of_nonneg_right h1 he.le
  · have : ilog2 n d + e + 1 = (ilog2 n d + 1) + e := by ring
    rw [this, zpow_add₀ (by norm_num : (2 : ℚ) ≠ 0)]
    exact mul_lt_mul_of_pos_right h2 he

/-- What `roundQ` returns when the exponent stays in range: a finite double in
canonical range whose value is the rounded quotient times `2^E`. -/
theorem roundQ_core (s : Bool) (n d : Nat) (e : Int) (hn : 0 < n) (hd : 0 < d)
    (hE : max (ilog2 n d + e - 52) (-1074) ≤ 970) :
    ∃ (m : Nat) (E1 : Int), roundQ s n d e = fin s m E1 ∧ m < 2 ^ 53 ∧ -1074 ≤ E1 ∧ E1 ≤ 971 ∧
      (m : ℚ) * (2 : ℚ) ^ E1 =
        ((rne (n * 2 ^ (e - max (ilog2 n d + e - 52) (-1074)).toNat)
              (d * 2 ^ (max (ilog2 n d + e - 52) (-1074) - e).toNat) : Nat) : ℚ)
          * (2 : ℚ) ^ (max (ilog2 n d + e - 52) (-1074)) := by
  set E : Int := max (ilog2 n d + e - 52) (-1074) with hEdef
  set N : Nat := n * 2 ^ (e - E).toNat with hN
  set D : Nat := d * 2 ^ (E - e).toNat with hD
  have hDpos : 0 < D := by positivity
  have hDq : (0 : ℚ) < (D : ℚ) := by exact_mod_cast hDpos
  have hE1 : -1074 ≤ E := le_max_right _ _
  have hE2 : ilog2 n d + e - 52 ≤ E := le_max_left _ _
  have hquot : (N : ℚ) / D = qval n d e / (2 : ℚ) ^ E := scaled_quot n d e E hd
  have hlt : N < 2 ^ 53 * D := by
    have h1 : (N : ℚ) / D < (2 : ℚ) ^ (53 : Int) := by
      rw [hquot, div_lt_iff₀ (two_pos_q E), ← zpow_add₀ (by norm_num : (2 : ℚ) ≠ 0)]
      refine lt_of_lt_of_le (qval_log n d e hn hd).2 ?_
      exact zpow_le_zpow_right₀ (by norm_num) (by omega)
    rw [div_lt_iff₀ hDq] at h1
    have h2 : (N : ℚ) < ((2 ^ 53 * D : Nat) : ℚ) := by
      push_cast
      have : (2 : ℚ) ^ (53 : Int) = (2 : ℚ) ^ (53 : Nat) := by norm_cast
      rw [this] at h1
      exact h1
    exact_mod_cast h2
  have hq : rne N D ≤ 2 ^ 53 := rne_le N D (2 ^ 53) hDpos hlt
  have hn0 : n ≠ 0 := by omega
  unfold roundQ
  simp only [hn0, if_false]
  rw [← hEdef, ← hN, ← hD]
  by_cases h53 : rne N D = 2 ^ 53
  · simp only [h53, if_true]
    have : ¬ (971 < E + 1) := by omega
    simp only [this, if_false]
    refine ⟨2 ^ 52, E + 1, rfl, by norm_num, by omega, by omega, ?_⟩
    rw [zpow_add₀ (by norm_num : (2 : ℚ) ≠ 0)]
    push_cast
    ring
  · simp only [h53, if_false]
    have : ¬ (971 < E) := by omega
    simp only [this, if_false]
    exact ⟨rne N D, E, rfl, by omega, hE1, by omega, rfl⟩

/-- Rounding error of `roundQ`: for a value below `2^(b+1)` the result is within
half a unit in the last place, `2^(b-53)` (or `2^(-1075)` in the subnormal
range). -/
theorem roundQ_near (s : Bool) (n d : Nat) (e : Int) (hn : 0 < n) (hd : 0 < d) (b : Int)
    (hv : qval n d e < (2 : ℚ) ^ (b + 1)) (hb : b ≤ 1022) :
    ∃ (m : Nat) (E1 : Int), roundQ s n d e = fin s m E1 ∧ m < 2 ^ 53 ∧ -1074 ≤ E1 ∧ E1 ≤ 971 ∧
      |(m : ℚ) * (2 : ℚ) ^ E1 - qval n d e| ≤ (2 : ℚ) ^ (max (b - 53) (-1075)) := by
  have hL : ilog2 n d + e ≤ b := by
    have h1 := (qval_log n d e hn hd).1
    have h2 : (2 : ℚ) ^ (ilog2 n d + e) < (2 : ℚ) ^ (b + 1) := lt_of_le_of_lt h1 hv
    have := (zpow_lt_zpow_iff_right₀ (by norm_num : (1 : ℚ) < 2)).mp h2
    omega
  have hE : max (ilog2 n d + e - 52) (-1074) ≤ 970 := by
    apply max_le <;> omega
  obtain ⟨m, E1, h1, h2, h3, h4, h5⟩ := roundQ_core s n d e hn hd hE
  refine ⟨m, E1, h1, h2, h3, h4, ?_⟩
  rw [h5]
  set E : Int := max (ilog2 n d + e - 52) (-1074) with hEdef
  have hDpos : 0 < d * 2 ^ (E - e).toNat := by positivity
  have hr := rne_spec (n * 2 ^ (e - E).toNat) (d * 2 ^ (E - e).toNat) hDpos
  rw [scaled_quot n d e E hd] at hr
  have hEp := two_pos_q E
  have key : |((rne (n * 2 ^ (e - E).toNat) (d * 2 ^ (E - e).toNat) : Nat) : ℚ) * (2 : ℚ) ^ E
      - qval n d e| ≤ (2 : ℚ) ^ E / 2 := by
    have : ((rne (n * 2 ^ (e - E).toNat) (d * 2 ^ (E - e).toNat) : Nat) : ℚ) * (2 : ℚ) ^ E
        - qval n d e =
        (((rne (n * 2 ^ (e - E).toNat) (d * 2 ^ (E - e).toNat) : Nat) : ℚ)
          - qval n d e / (2 : ℚ) ^ E) * (2 : ℚ) ^ E := by
      field_simp
    rw [this, abs_mul, abs_of_pos hEp]
    calc _ ≤ (1 / 2) * (2 : ℚ) ^ E := mul_le_mul_of_nonneg_right hr hEp.le
      _ = (2 : ℚ) ^ E / 2 := by ring
  refine le_trans key ?_
  have : (2 : ℚ) ^ E / 2 = (2 : ℚ) ^ (E - 1) := by
    rw [zpow_sub₀ (by norm_num : (2 : ℚ) ≠ 0)]
    simp
  rw [this]
  apply zpow_le_zpow_right₀ (by norm_num)
  have : E ≤ max (b - 52) (-1074) := by
    apply max_le
    · exact le_trans (by omega) (le_max_left _ _)
    · exact le_max_right _ _
  rcases le_total (b - 53) (-1075) with h | h
  · rw [max_eq_right h]
    rw [max_eq_right (by omega)] at this
    omega
  · rw [max_eq_left h]
    rw [max_eq_left (by omega)] at this
    omega

/-- Rounding is exact on a value `n * 2^e` with `n < 2^53` and `e` in range. -/
theorem roundQ_exact (s : Bool) (n : Nat) (e : Int) (hn : 0 < n) (hn53 : n < 2 ^ 53)
    (he : -1074 ≤ e) (he2 : e ≤ 970) :
    ∃ (m : Nat) (E1 : Int), roundQ s n 1 e = fin s m E1 ∧ m < 2 ^ 53 ∧ -1074 ≤ E1 ∧ E1 ≤ 971 ∧
      (m : ℚ) * (2 : ℚ) ^ E1 = (n : ℚ) * (2 : ℚ) ^ e := by
  have hL : ilog2 n 1 ≤ 52 := by
    have h1 := (ilog2_spec n 1 hn Nat.one_pos).1
    have h2 : ((n : ℚ) / (1 : Nat)) < (2 : ℚ) ^ (53 : Int) := by
      have h0 : (n : ℚ) < ((2 ^ 53 : Nat) : ℚ) := by exact_mod_cast hn53
      have h53 : (2 : ℚ) ^ (53 : Int) = ((2 ^ 53 : Nat) : ℚ) := by norm_num
      rw [Nat.cast_one, div_one, h53]
      exact h0
    have h3 := (zpow_lt_zpow_iff_right₀ (by norm_num : (1 : ℚ) < 2)).mp (lt_of_le_of_lt h1 h2)
    omega
  have hEe : max (ilog2 n 1 + e - 52) (-1074) ≤ e := by
    apply max_le <;> omega
  have hE : max (ilog2 n 1 + e - 52) (-1074) ≤ 970 := le_trans hEe he2
  obtain ⟨m, E1, h1, h2, h3, h4, h5⟩ := roundQ_core s n 1 e hn Nat.one_pos hE
  refine ⟨m, E1, h1, h2, h3, h4, ?_⟩
  rw [h5]
  set E : Int := max (ilog2 n 1 + e - 52) (-1074) with hEdef
  have h0 : (E - e).toNat = 0 := Int.toNat_eq_zero.mpr (by omega)
  rw [h0]
  simp only [pow_zero, mul_one, rne_one]
  push_cast
  have : ((e - E).toNat : Int) = e - E := Int.toNat_of_nonneg (by omega)
  rw [mul_assoc, ← zpow_natCast, this, ← zpow_add₀ (by norm_num : (2 : ℚ) ≠ 0)]
  congr 2
  ring


/-! ## Symmetry under negation -/

theorem roundQ_not (s : Bool) (n d : Nat) (e : Int) :
    roundQ (!s) n d e = neg (roundQ s n d e) := by
  unfold roundQ
  simp only []
  split_ifs <;> simp [neg, zero]

theorem neg_nan : neg nan = nan := rfl

theorem neg_inf (s : Bool) : neg (inf s) = inf (!s) := rfl

theorem neg_fin (s : Bool) (m : Nat) (e : Int) : neg (fin s m e) = fin (!s) m e := rfl

theorem neg_zero (s : Bool) : neg (zero s) = zero (!s) := rfl

theorem xor_not_left (s t : Bool) : xor (!s) t = !(xor s t) := by
  cases s <;> cases t <;> rfl

theorem neg_neg (x : F64) : neg (neg x) = x := by
  cases x <;> simp [neg]

theorem fabs_neg (x : F64) : fabs (neg x) = fabs x := by
  cases x <;> simp [neg, fabs]

theorem mul_neg_left (x y : F64) : mul (neg x) y = neg (mul x y) := by
  cases x with
  | nan => cases y <;> rfl
  | inf s =>
    cases y with
    | nan => rfl
    | inf t => simp only [neg_inf, mul, xor_not_left]
    | fin t n f =>
      simp only [neg_inf, mul, xor_not_left]
      split_ifs <;> simp [neg_nan, neg_inf]
  | fin s m e =>
    cases y with
    | nan => rfl
    | inf t =>
      simp only [neg_fin, mul, xor_not_left]
      split_ifs <;> simp [neg_nan, neg_inf]
    | fin t n f =>
      simp only [neg_fin, mul, xor_not_left, roundQ_not]

theorem div_neg_left (x y : F64) : div (neg x) y = neg (div x y) := by
  cases x with
  | nan => cases y <;> rfl
  | inf s =>
    cases y with
    | nan => rfl
    | inf t => rfl
    | fin t n f => simp only [neg_inf, div, xor_not_left]
  | fin s m e =>
    cases y with
    | nan => rfl
    | inf t => simp only [neg_fin, div, xor_not_left, neg_zero]
    | fin t n f =>
      simp only [neg_fin, div, xor_not_left]
      split_ifs <;> simp [neg_nan, neg_inf, roundQ_not]

theorem fmod_neg_left (x y : F64) : fmod (neg x) y = neg (fmod x y) := by
  cases x with
  | nan => cases y <;> rfl
  | inf s => cases y <;> rfl
  | fin s m e =>
    cases y with
    | nan => rfl
    | inf t => rfl
    | fin t n f =>
      simp only [neg_fin, fmod]
      split_ifs <;> simp [neg_nan, roundQ_not]

theorem sInt_not (s : Bool) (m : Nat) : sInt (!s) m = -sInt s m := by
  cases s <;> simp [sInt]

theorem fabs_add_neg_neg (x y : F64) : fabs (add (neg x) (neg y)) = fabs (add x y) := by
  cases x with
  | nan => cases y <;> simp [neg, add]
  | inf s =>
    cases y with
    | nan => simp [neg, add]
    | inf t =>
      simp only [neg, add]
      by_cases h : s = t
      · subst h; simp [fabs]
      · have : ¬ ((!s) = (!t)) := by simpa using h
        simp [h, this]
    | fin t n f => simp [neg, add, fabs]
  | fin s m e =>
    cases y with
    | nan => simp [neg, add]
    | inf t => simp [neg, add, fabs]
    | fin t n f =>
      simp only [neg, add, sInt_not]
      set i : Int := sInt s (m * 2 ^ (e - min e f).toNat) + sInt t (n * 2 ^ (f - min e f).toNat)
        with hi
      have hneg : -sInt s (m * 2 ^ (e - min e f).toNat) + -sInt t (n * 2 ^ (f - min e f).toNat)
          = -i := by rw [hi]; ring
      rw [hneg]
      by_cases h0 : i = 0
      · simp [h0, zero, fabs]
      · have h1 : -i ≠ 0 := by omega
        simp only [h0, h1, if_false, Int.natAbs_neg]
        have : decide (-i < 0) = !decide (i < 0) := by
          by_cases hlt : i < 0
          · have : ¬ (-i < 0) := by omega
            simp [hlt, this]
          · have : -i < 0 := by omega
            simp [hlt, this]
        rw [this, roundQ_not, fabs_neg]

end F64

theorem degrees_to_radians_neg (x : F64) :
    degrees_to_radians (neg x) = neg (degrees_to_radians x) := by
  unfold degrees_to_radians
  rw [mul_neg_left, div_neg_left]

theorem is_tangent_undefined_neg (x : F64) :
    is_tangent_undefined (neg x) = is_tangent_undefined x := by
  unfold is_tangent_undefined
  simp only []
  rw [fmod_neg_left]
  have h1 : fabs (sub (neg (fmod x PI)) (div PI (ofInt 2)))
      = fabs (add (fmod x PI) (div PI (ofInt 2))) := by
    unfold sub
    rw [fabs_add_neg_neg]
  have h2 : fabs (add (neg (fmod x PI)) (div PI (ofInt 2)))
      = fabs (sub (fmod x PI) (div PI (ofInt 2))) := by
    unfold sub
    rw [← fabs_add_neg_neg (fmod x PI) (neg (div PI (ofInt 2))), F64.neg_neg]
  rw [h1, h2, Bool.or_comm]

theorem angle_rad_of_neg (x : F64) (is_radians : Bool) :
    angle_rad_of (neg x) is_radians = neg (angle_rad_of x is_radians) := by
  cases is_radians
  · exact degrees_to_radians_neg x
  · rfl

namespace F64

/-! ## Exact operations -/

theorem toRat_fin (s : Bool) (m : Nat) (e : Int) :
    toRat (fin s m e) = (if s then -1 else 1) * (m : ℚ) * (2 : ℚ) ^ e := rfl

theorem sInt_cast (s : Bool) (m : Nat) :
    ((sInt s m : Int) : ℚ) = (if s then -1 else 1) * (m : ℚ) := by
  cases s <;> simp [sInt]

theorem pow_toNat_mul (e E : Int) (h : E ≤ e) :
    ((2 ^ (e - E).toNat : Nat) : ℚ) * (2 : ℚ) ^ E = (2 : ℚ) ^ e := by
  have : ((e - E).toNat : Int) = e - E := Int.toNat_of_nonneg (by omega)
  push_cast
  rw [← zpow_natCast, this, ← zpow_add₀ (by norm_num : (2 : ℚ) ≠ 0)]
  congr 1
  ring

theorem toRat_aligned (s : Bool) (m : Nat) (e E : Int) (h : E ≤ e) :
    toRat (fin s m e) = ((sInt s (m * 2 ^ (e - E).toNat) : Int) : ℚ) * (2 : ℚ) ^ E := by
  rw [toRat_fin, sInt_cast, Nat.cast_mul]
  have := pow_toNat_mul e E h
  calc (if s then -1 else 1) * (m : ℚ) * (2 : ℚ) ^ e
      = (if s then -1 else 1) * (m : ℚ) * (((2 ^ (e - E).toNat : Nat) : ℚ) * (2 : ℚ) ^ E) := by
        rw [this]
    _ = _ := by ring

theorem lt_fin_iff (s : Bool) (m : Nat) (e : Int) (t : Bool) (n : Nat) (f : Int) :
    lt (fin s m e) (fin t n f) = true ↔ toRat (fin s m e) < toRat (fin t n f) := by
  rw [toRat_aligned s m e (min e f) (min_le_left _ _),
    toRat_aligned t n f (min e f) (min_le_right _ _)]
  rw [mul_lt_mul_right (two_pos_q _)]
  simp only [lt, decide_eq_true_eq]
  exact Int.cast_lt.symm

theorem toRat_fabs (x : F64) : toRat (fabs x) = |toRat x| := by
  cases x with
  | nan => simp [fabs, toRat]
  | inf s => simp [fabs, toRat]
  | fin s m e =>
    have h : (0 : ℚ) ≤ (m : ℚ) * (2 : ℚ) ^ e := by
      have := two_pos_q e
      positivity
    cases s
    · simp only [fabs, toRat_fin]
      simp only [Bool.false_eq_true, if_false, one_mul]
      rw [abs_of_nonneg h]
    · simp only [fabs, toRat_fin]
      simp only [Bool.false_eq_true, if_false, if_true, one_mul]
      rw [mul_assoc, neg_one_mul, abs_neg, abs_of_nonneg h]

/-- Addition is exact when the aligned integer sum has fewer than 54 bits. -/
theorem add_exact (s : Bool) (m : Nat) (e : Int) (t : Bool) (n : Nat) (f : Int)
    (hE1 : -1074 ≤ min e f) (hE2 : min e f ≤ 970)
    (hsum : |toRat (fin s m e) + toRat (fin t n f)| < (2 : ℚ) ^ (53 : Nat) * (2 : ℚ) ^ (min e f)) :
    ∃ (s1 : Bool) (m1 : Nat) (E1 : Int), add (fin s m e) (fin t n f) = fin s1 m1 E1 ∧
      m1 < 2 ^ 53 ∧ -1074 ≤ E1 ∧
      toRat (fin s1 m1 E1) = toRat (fin s m e) + toRat (fin t n f) := by
  set E : Int := min e f with hE
  set i : Int := sInt s (m * 2 ^ (e - E).toNat) + sInt t (n * 2 ^ (f - E).toNat) with hi
  have hval : toRat (fin s m e) + toRat (fin t n f) = (i : ℚ) * (2 : ℚ) ^ E := by
    rw [toRat_aligned s m e E (min_le_left _ _), toRat_aligned t n f E (min_le_right _ _), hi]
    push_cast
    ring
  have hEp := two_pos_q E
  simp only [add]
  rw [← hE, ← hi]
  by_cases h0 : i = 0
  · simp only [h0, if_true]
    refine ⟨s && t, 0, -1074, rfl, by norm_num, le_refl _, ?_⟩
    rw [hval, h0]
    simp [toRat_fin]
  · simp only [h0, if_false]
    have habs : (i.natAbs : ℚ) = |(i : ℚ)| := by
      rw [Nat.cast_natAbs, Int.cast_abs]
    have hlt : i.natAbs < 2 ^ 53 := by
      rw [hval, abs_mul, abs_of_pos hEp, mul_lt_mul_right hEp, ← habs] at hsum
      exact_mod_cast hsum
    obtain ⟨m1, E1, h1, h2, h3, _, h5⟩ :=
      roundQ_exact (decide (i < 0)) i.natAbs E (Int.natAbs_pos.mpr h0) hlt hE1 hE2
    refine ⟨decide (i < 0), m1, E1, h1, h2, h3, ?_⟩
    rw [toRat_fin, mul_assoc, h5, hval, habs]
    by_cases hneg : i < 0
    · have : (i : ℚ) < 0 := by exact_mod_cast hneg
      simp only [hneg, decide_True, if_true]
      rw [abs_of_neg this]
      ring
    · have : (0 : ℚ) ≤ (i : ℚ) := by exact_mod_cast (not_lt.mp hneg)
      simp only [hneg, decide_False, Bool.false_eq_true, if_false]
      rw [abs_of_nonneg this]
      ring

/-- The remainder computed by `fmod` on canonical finite doubles: it is exact
and keeps the sign of the dividend. -/
theorem fmod_exact (s : Bool) (m : Nat) (e : Int) (t : Bool) (n : Nat) (f : Int)
    (hm : m < 2 ^ 53) (hn : 0 < n) (hn53 : n < 2 ^ 53)
    (he : -1074 ≤ e) (hf : -1074 ≤ f) (he2 : e ≤ 970) (k : Nat)
    (hk1 : (k : ℚ) * ((n : ℚ) * (2 : ℚ) ^ f) ≤ (m : ℚ) * (2 : ℚ) ^ e)
    (hk2 : (m : ℚ) * (2 : ℚ) ^ e < ((k : ℚ) + 1) * ((n : ℚ) * (2 : ℚ) ^ f)) :
    ∃ (m1 : Nat) (E1 : Int), fmod (fin s m e) (fin t n f) = fin s m1 E1 ∧
      m1 < 2 ^ 53 ∧ -1074 ≤ E1 ∧
      (m1 : ℚ) * (2 : ℚ) ^ E1 = (m : ℚ) * (2 : ℚ) ^ e - (k : ℚ) * ((n : ℚ) * (2 : ℚ) ^ f) := by
  set E : Int := min e f with hE
  set X : Nat := m * 2 ^ (e - E).toNat with hX
  set Y : Nat := n * 2 ^ (f - E).toNat with hY
  have hEp := two_pos_q E
  have hXq : (X : ℚ) * (2 : ℚ) ^ E = (m : ℚ) * (2 : ℚ) ^ e := by
    rw [hX, Nat.cast_mul, mul_assoc, pow_toNat_mul e E (min_le_left _ _)]
  have hYq : (Y : ℚ) * (2 : ℚ) ^ E = (n : ℚ) * (2 : ℚ) ^ f := by
    rw [hY, Nat.cast_mul, mul_assoc, pow_toNat_mul f E (min_le_right _ _)]
  have hkY : k * Y ≤ X := by
    rw [← hXq, ← hYq, ← mul_assoc, mul_le_mul_right hEp] at hk1
    exact_mod_cast hk1
  have hkY2 : X < (k + 1) * Y := by
    rw [← hXq, ← hYq, ← mul_assoc, mul_lt_mul_right hEp] at hk2
    exact_mod_cast hk2
  have hYpos : 0 < Y := by positivity
  have hmod : X % Y = X - k * Y := by
    have h1 : X = (X - k * Y) + k * Y := by omega
    have h2 : X - k * Y < Y := by
      have : (k + 1) * Y = k * Y + Y := by ring
      omega
    conv_lhs => rw [h1]
    rw [Nat.add_mul_mod_self_right, Nat.mod_eq_of_lt h2]
  have hRq : ((X % Y : Nat) : ℚ) = (X : ℚ) - (k : ℚ) * (Y : ℚ) := by
    rw [hmod, Nat.cast_sub hkY]
    push_cast
    ring
  have hR53 : X % Y < 2 ^ 53 := by
    rcases le_total e f with h | h
    · have hEe : E = e := min_eq_left h
      have hXm : X = m := by rw [hX, hEe]; simp
      have : X % Y ≤ X := Nat.mod_le _ _
      omega
    · have hEf : E = f := min_eq_right h
      have hYn : Y = n := by rw [hY, hEf]; simp
      have : X % Y < Y := Nat.mod_lt _ hYpos
      omega
  have hn0 : n ≠ 0 := by omega
  have hE1 : -1074 ≤ E := le_min he hf
  have hE2 : E ≤ 970 := le_trans (min_le_left _ _) he2
  simp only [fmod, hn0, if_false]
  rw [← hE, ← hX, ← hY]
  have hgoal : (m : ℚ) * (2 : ℚ) ^ e - (k : ℚ) * ((n : ℚ) * (2 : ℚ) ^ f)
      = ((X % Y : Nat) : ℚ) * (2 : ℚ) ^ E := by
    rw [hRq, ← hXq, ← hYq]
    ring
  rw [hgoal]
  by_cases h0 : X % Y = 0
  · rw [h0]
    refine ⟨0, -1074, ?_, by norm_num, le_refl _, by simp⟩
    simp [roundQ, zero]
  · obtain ⟨m1, E1, h1, h2, h3, _, h5⟩ :=
      roundQ_exact s (X % Y) E (Nat.pos_of_ne_zero h0) hR53 hE1 hE2
    exact ⟨m1, E1, h1, h2, h3, h5⟩

end F64

namespace F64

/-- Relative rounding error of `roundQ` in the normal range: at most `2^(-53)`. -/
theorem roundQ_rel (s : Bool) (n d : Nat) (e : Int) (hn : 0 < n) (hd : 0 < d)
    (hlo : (2 : ℚ) ^ (-1022 : Int) ≤ qval n d e) (hhi : qval n d e < (2 : ℚ) ^ (1023 : Int)) :
    ∃ (m : Nat) (E1 : Int), roundQ s n d e = fin s m E1 ∧ m < 2 ^ 53 ∧ -1074 ≤ E1 ∧ E1 ≤ 971 ∧
      |(m : ℚ) * (2 : ℚ) ^ E1 - qval n d e| ≤ qval n d e * (2 : ℚ) ^ (-53 : Int) := by
  obtain ⟨h1, h2⟩ := qval_log n d e hn hd
  set b : Int := ilog2 n d + e with hb
  have hb1 : b ≤ 1022 := by
    have := (zpow_lt_zpow_iff_right₀ (by norm_num : (1 : ℚ) < 2)).mp (lt_of_le_of_lt h1 hhi)
    omega
  have hb2 : -1022 ≤ b := by
    have := (zpow_lt_zpow_iff_right₀ (by norm_num : (1 : ℚ) < 2)).mp (lt_of_le_of_lt hlo h2)
    omega
  obtain ⟨m, E1, g1, g2, g3, g4, g5⟩ := roundQ_near s n d e hn hd b h2 hb1
  refine ⟨m, E1, g1, g2, g3, g4, le_trans g5 ?_⟩
  rw [max_eq_left (by omega)]
  have : (2 : ℚ) ^ (b - 53) = (2 : ℚ) ^ b * (2 : ℚ) ^ (-53 : Int) := by
    rw [← zpow_add₀ (by norm_num : (2 : ℚ) ≠ 0)]
    congr 1
  rw [this]
  exact mul_le_mul_of_nonneg_right h1 (two_pos_q _).le

theorem ofInt_one : ofInt 1 = fin false 4503599627370496 (-52) := by decide

/-- The reciprocal `1.0 / t` of a finite nonzero double of moderate size is the
real reciprocal up to a relative error of `2^(-53)`. -/
theorem div_one_rel (s : Bool) (m : Nat) (e : Int) (hm : 0 < m)
    (hlo : (2 : ℚ) ^ (-1000 : Int) ≤ (m : ℚ) * (2 : ℚ) ^ e)
    (hhi : (m : ℚ) * (2 : ℚ) ^ e ≤ (2 : ℚ) ^ (1000 : Int)) :
    ∃ (m1 : Nat) (E1 : Int), div (ofInt 1) (fin s m e) = fin s m1 E1 ∧ m1 < 2 ^ 53 ∧
      -1074 ≤ E1 ∧ E1 ≤ 971 ∧
      |(m1 : ℚ) * (2 : ℚ) ^ E1 - 1 / ((m : ℚ) * (2 : ℚ) ^ e)|
        ≤ 1 / ((m : ℚ) * (2 : ℚ) ^ e) * (2 : ℚ) ^ (-53 : Int) := by
  have hmq : (0 : ℚ) < (m : ℚ) := by exact_mod_cast hm
  have hep := two_pos_q e
  have hτ : (0 : ℚ) < (m : ℚ) * (2 : ℚ) ^ e := by positivity
  have hq : qval 4503599627370496 m (-52 - e) = 1 / ((m : ℚ) * (2 : ℚ) ^ e) := by
    unfold qval
    rw [zpow_sub₀ (by norm_num : (2 : ℚ) ≠ 0)]
    have : (2 : ℚ) ^ (-52 : Int) = 1 / 4503599627370496 := by norm_num [zpow_neg]
    rw [this]
    field_simp
    ring
  have hm0 : m ≠ 0 := by omega
  have hdiv : div (ofInt 1) (fin s m e) = roundQ s 4503599627370496 m (-52 - e) := by
    rw [ofInt_one]
    simp [div, hm0]
  rw [hdiv, ← hq]
  apply roundQ_rel s 4503599627370496 m (-52 - e) (by norm_num) hm
  · rw [hq, le_div_iff₀ hτ]
    calc (2 : ℚ) ^ (-1022 : Int) * ((m : ℚ) * (2 : ℚ) ^ e)
        ≤ (2 : ℚ) ^ (-1022 : Int) * (2 : ℚ) ^ (1000 : Int) :=
          mul_le_mul_of_nonneg_left hhi (two_pos_q _).le
      _ ≤ 1 := by
          rw [← zpow_add₀ (by norm_num : (2 : ℚ) ≠ 0)]
          exact zpow_le_one_of_nonpos₀ (by norm_num) (by norm_num)
  · rw [hq, div_lt_iff₀ hτ]
    calc (1 : ℚ) = (2 : ℚ) ^ (1000 : Int) * (2 : ℚ) ^ (-1000 : Int) := by
          rw [← zpow_add₀ (by norm_num : (2 : ℚ) ≠ 0)]; norm_num
      _ < (2 : ℚ) ^ (1023 : Int) * (2 : ℚ) ^ (-1000 : Int) := by
          apply mul_lt_mul_of_pos_right _ (two_pos_q _)
          exact (zpow_lt_zpow_iff_right₀ (by norm_num : (1 : ℚ) < 2)).mpr (by norm_num)
      _ ≤ (2 : ℚ) ^ (1023 : Int) * ((m : ℚ) * (2 : ℚ) ^ e) :=
          mul_le_mul_of_nonneg_left hlo (two_pos_q _).le

/-- A finite nonzero double of moderate size times its rounded reciprocal is
within `2^(-52)` of 1. -/
theorem mul_div_one_near (s : Bool) (m : Nat) (e : Int) (hm : 0 < m)
    (hlo : (2 : ℚ) ^ (-1000 : Int) ≤ (m : ℚ) * (2 : ℚ) ^ e)
    (hhi : (m : ℚ) * (2 : ℚ) ^ e ≤ (2 : ℚ) ^ (1000 : Int)) :
    isFinite (mul (fin s m e) (div (ofInt 1) (fin s m e))) = true ∧
      |toRat (mul (fin s m e) (div (ofInt 1) (fin s m e))) - 1| ≤ (2 : ℚ) ^ (-52 : Int) := by
  obtain ⟨m1, E1, h1, _, _, _, h5⟩ := div_one_rel s m e hm hlo hhi
  have hmq : (0 : ℚ) < (m : ℚ) := by exact_mod_cast hm
  have hep := two_pos_q e
  have hτ : (0 : ℚ) < (m : ℚ) * (2 : ℚ) ^ e := by positivity
  set τ : ℚ := (m : ℚ) * (2 : ℚ) ^ e with hτdef
  set γ : ℚ := (m1 : ℚ) * (2 : ℚ) ^ E1 with hγdef
  have hu : (2 : ℚ) ^ (-53 : Int) = 1 / 9007199254740992 := by norm_num [zpow_neg]
  have hu2 : (2 : ℚ) ^ (-52 : Int) = 1 / 4503599627370496 := by norm_num [zpow_neg]
  rw [hu] at h5
  obtain ⟨h5a, h5b⟩ := abs_le.mp h5
  have hτγ : |τ * γ - 1| ≤ 1 / 9007199254740992 := by
    have e1 : τ * γ - 1 = τ * (γ - 1 / τ) := by
      field_simp
      ring
    rw [e1, abs_mul, abs_of_pos hτ]
    calc τ * |γ - 1 / τ| ≤ τ * (1 / τ * (1 / 9007199254740992)) :=
          mul_le_mul_of_nonneg_left h5 hτ.le
      _ = 1 / 9007199254740992 := by field_simp
  obtain ⟨h6a, h6b⟩ := abs_le.mp hτγ
  have hγpos : 0 < γ := by
    by_contra hneg
    have : τ * γ ≤ 0 := mul_nonpos_of_nonneg_of_nonpos hτ.le (not_lt.mp hneg)
    linarith
  have hm1 : 0 < m1 := by
    rcases Nat.eq_zero_or_pos m1 with h0 | h0
    · rw [hγdef, h0] at hγpos
      simp at hγpos
    · exact h0
  have hq : qval (m * m1) 1 (e + E1) = τ * γ := by
    unfold qval
    rw [zpow_add₀ (by norm_num : (2 : ℚ) ≠ 0)]
    push_cast
    ring
  have hmul : mul (fin s m e) (div (ofInt 1) (fin s m e)) = roundQ false (m * m1) 1 (e + E1) := by
    rw [h1]
    simp [mul]
  have hv : qval (m * m1) 1 (e + E1) < (2 : ℚ) ^ ((0 : Int) + 1) := by
    rw [hq]
    norm_num
    linarith
  obtain ⟨m2, E2, g1, _, _, _, g5⟩ :=
    roundQ_near false (m * m1) 1 (e + E1) (Nat.mul_pos hm hm1) Nat.one_pos 0 hv (by norm_num)
  rw [hmul, g1]
  refine ⟨rfl, ?_⟩
  rw [toRat_fin]
  simp only [Bool.false_eq_true, if_false, one_mul]
  rw [hq] at g5
  have hmax : max ((0 : Int) - 53) (-1075) = -53 := by norm_num
  rw [hmax, hu] at g5
  obtain ⟨g5a, g5b⟩ := abs_le.mp g5
  rw [hu2, abs_le]
  constructor <;> linarith

end F64

namespace F64

theorem ofInt_nat_exact (i : Nat) (h0 : 0 < i) (h53 : i < 2 ^ 53) :
    ∃ (m : Nat) (E : Int), ofInt (i : Int) = fin false m E ∧ m < 2 ^ 53 ∧ -1074 ≤ E ∧ E ≤ 971 ∧
      (m : ℚ) * (2 : ℚ) ^ E = (i : ℚ) := by
  have hneg : decide ((i : Int) < 0) = false := by
    simp
  obtain ⟨m, E, h1, h2, h3, h4, h5⟩ :=
    roundQ_exact false i 0 h0 h53 (by norm_num) (by norm_num)
  refine ⟨m, E, ?_, h2, h3, h4, ?_⟩
  · unfold ofInt
    rw [hneg, Int.natAbs_ofNat]
    exact h1
  · rw [h5]
    simp

/-- Absolute rounding error of a product of finite doubles below `2^(b+1)`. -/
theorem mul_fin_near (s : Bool) (m : Nat) (e : Int) (t : Bool) (n : Nat) (f : Int)
    (hm : 0 < m) (hn : 0 < n) (b : Int)
    (hv : (m : ℚ) * (2 : ℚ) ^ e * ((n : ℚ) * (2 : ℚ) ^ f) < (2 : ℚ) ^ (b + 1))
    (hb : b ≤ 1022) :
    ∃ (m1 : Nat) (E1 : Int), mul (fin s m e) (fin t n f) = fin (xor s t) m1 E1 ∧ m1 < 2 ^ 53 ∧
      -1074 ≤ E1 ∧ E1 ≤ 971 ∧
      |(m1 : ℚ) * (2 : ℚ) ^ E1 - (m : ℚ) * (2 : ℚ) ^ e * ((n : ℚ) * (2 : ℚ) ^ f)|
        ≤ (2 : ℚ) ^ (max (b - 53) (-1075)) := by
  have hq : qval (m * n) 1 (e + f) = (m : ℚ) * (2 : ℚ) ^ e * ((n : ℚ) * (2 : ℚ) ^ f) := by
    unfold qval
    rw [zpow_add₀ (by norm_num : (2 : ℚ) ≠ 0)]
    push_cast
    ring
  rw [← hq] at hv ⊢
  have : mul (fin s m e) (fin t n f) = roundQ (xor s t) (m * n) 1 (e + f) := rfl
  rw [this]
  exact roundQ_near (xor s t) (m * n) 1 (e + f) (Nat.mul_pos hm hn) Nat.one_pos b hv hb

/-- Absolute rounding error of a quotient of finite doubles below `2^(b+1)`. -/
theorem div_fin_near (s : Bool) (m : Nat) (e : Int) (t : Bool) (n : Nat) (f : Int)
    (hm : 0 < m) (hn : 0 < n) (b : Int)
    (hv : (m : ℚ) * (2 : ℚ) ^ e / ((n : ℚ) * (2 : ℚ) ^ f) < (2 : ℚ) ^ (b + 1))
    (hb : b ≤ 1022) :
    ∃ (m1 : Nat) (E1 : Int), div (fin s m e) (fin t n f) = fin (xor s t) m1 E1 ∧ m1 < 2 ^ 53 ∧
      -1074 ≤ E1 ∧ E1 ≤ 971 ∧
      |(m1 : ℚ) * (2 : ℚ) ^ E1 - (m : ℚ) * (2 : ℚ) ^ e / ((n : ℚ) * (2 : ℚ) ^ f)|
        ≤ (2 : ℚ) ^ (max (b - 53) (-1075)) := by
  have hnq : (0 : ℚ) < (n : ℚ) := by exact_mod_cast hn
  have hf := two_pos_q f
  have hq : qval m n (e - f) = (m : ℚ) * (2 : ℚ) ^ e / ((n : ℚ) * (2 : ℚ) ^ f) := by
    unfold qval
    rw [zpow_sub₀ (by norm_num : (2 : ℚ) ≠ 0)]
    field_simp
  rw [← hq] at hv ⊢
  have hn0 : n ≠ 0 := by omega
  have : div (fin s m e) (fin t n f) = roundQ (xor s t) m n (e - f) := by
    simp [div, hn0]
  rw [this]
  exact roundQ_near (xor s t) m n (e - f) hm hn b hv hb

/-- Relative rounding error of a product of finite doubles in the normal range. -/
theorem mul_fin_rel (s : Bool) (m : Nat) (e : Int) (t : Bool) (n : Nat) (f : Int)
    (hm : 0 < m) (hn : 0 < n)
    (hlo : (2 : ℚ) ^ (-1022 : Int) ≤ (m : ℚ) * (2 : ℚ) ^ e * ((n : ℚ) * (2 : ℚ) ^ f))
    (hhi : (m : ℚ) * (2 : ℚ) ^ e * ((n : ℚ) * (2 : ℚ) ^ f) < (2 : ℚ) ^ (1023 : Int)) :
    ∃ (m1 : Nat) (E1 : Int), mul (fin s m e) (fin t n f) = fin (xor s t) m1 E1 ∧ m1 < 2 ^ 53 ∧
      -1074 ≤ E1 ∧ E1 ≤ 971 ∧
      |(m1 : ℚ) * (2 : ℚ) ^ E1 - (m : ℚ) * (2 : ℚ) ^ e * ((n : ℚ) * (2 : ℚ) ^ f)|
        ≤ (m : ℚ) * (2 : ℚ) ^ e * ((n : ℚ) * (2 : ℚ) ^ f) * (2 : ℚ) ^ (-53 : Int) := by
  have hq : qval (m * n) 1 (e + f) = (m : ℚ) * (2 : ℚ) ^ e * ((n : ℚ) * (2 : ℚ) ^ f) := by
    unfold qval
    rw [zpow_add₀ (by norm_num : (2 : ℚ) ≠ 0)]
    push_cast
    ring
  rw [← hq] at hlo hhi ⊢
  have : mul (fin s m e) (fin t n f) = roundQ (xor s t) (m * n) 1 (e + f) := rfl
  rw [this]
  exact roundQ_rel (xor s t) (m * n) 1 (e + f) (Nat.mul_pos hm hn) Nat.one_pos hlo hhi

/-- Relative rounding error of a quotient of finite doubles in the normal range. -/
theorem div_fin_rel (s : Bool) (m : Nat) (e : Int) (t : Bool) (n : Nat) (f : Int)
    (hm : 0 < m) (hn : 0 < n)
    (hlo : (2 : ℚ) ^ (-1022 : Int) ≤ (m : ℚ) * (2 : ℚ) ^ e / ((n : ℚ) * (2 : ℚ) ^ f))
    (hhi : (m : ℚ) * (2 : ℚ) ^ e / ((n : ℚ) * (2 : ℚ) ^ f) < (2 : ℚ) ^ (1023 : Int)) :
    ∃ (m1 : Nat) (E1 : Int), div (fin s m e) (fin t n f) = fin (xor s t) m1 E1 ∧ m1 < 2 ^ 53 ∧
      -1074 ≤ E1 ∧ E1 ≤ 971 ∧
      |(m1 : ℚ) * (2 : ℚ) ^ E1 - (m : ℚ) * (2 : ℚ) ^ e / ((n : ℚ) * (2 : ℚ) ^ f)|
        ≤ (m : ℚ) * (2 : ℚ) ^ e / ((n : ℚ) * (2 : ℚ) ^ f) * (2 : ℚ) ^ (-53 : Int) := by
  have hnq : (0 : ℚ) < (n : ℚ) := by exact_mod_cast hn
  have hf := two_pos_q f
  have hq : qval m n (e - f) = (m : ℚ) * (2 : ℚ) ^ e / ((n : ℚ) * (2 : ℚ) ^ f) := by
    unfold qval
    rw [zpow_sub₀ (by norm_num : (2 : ℚ) ≠ 0)]
    field_simp
  rw [← hq] at hlo hhi ⊢
  have hn0 : n ≠ 0 := by omega
  have : div (fin s m e) (fin t n f) = roundQ (xor s t) m n (e - f) := by
    simp [div, hn0]
  rw [this]
  exact roundQ_rel (xor s t) m n (e - f) hm hn hlo hhi

theorem pos_of_value_pos (m : Nat) (E : Int) (h : 0 < (m : ℚ) * (2 : ℚ) ^ E) : 0 < m := by
  rcases Nat.eq_zero_or_pos m with h0 | h0
  · rw [h0] at h
    simp at h
  · exact h0

/-- A canonical significand with value below `2^b` has exponent below `b`. -/
theorem exp_lt_of_value_lt (m : Nat) (E b : Int) (hm : 0 < m)
    (h : (m : ℚ) * (2 : ℚ) ^ E < (2 : ℚ) ^ b) : E < b := by
  have h1 : (1 : ℚ) ≤ (m : ℚ) := by exact_mod_cast hm
  have h2 : (2 : ℚ) ^ E ≤ (m : ℚ) * (2 : ℚ) ^ E := by
    have := two_pos_q E
    nlinarith
  exact (zpow_lt_zpow_iff_right₀ (by norm_num : (1 : ℚ) < 2)).mp (lt_of_le_of_lt h2 h)

/-- A significand below `2^53` with value at least `2^b` has exponent above `b - 53`. -/
theorem exp_gt_of_value_ge (m : Nat) (E b : Int) (hm : m < 2 ^ 53)
    (h : (2 : ℚ) ^ b ≤ (m : ℚ) * (2 : ℚ) ^ E) : b - 53 < E := by
  have h1 : (m : ℚ) < (2 : ℚ) ^ (53 : Int) := by
    have : (m : ℚ) < ((2 ^ 53 : Nat) : ℚ) := by exact_mod_cast hm
    have h53 : (2 : ℚ) ^ (53 : Int) = ((2 ^ 53 : Nat) : ℚ) := by norm_num
    rw [h53]
    exact this
  have hE := two_pos_q E
  have h2 : (m : ℚ) * (2 : ℚ) ^ E < (2 : ℚ) ^ (53 : Int) * (2 : ℚ) ^ E :=
    mul_lt_mul_of_pos_right h1 hE
  rw [← zpow_add₀ (by norm_num : (2 : ℚ) ≠ 0)] at h2
  have := (zpow_lt_zpow_iff_right₀ (by norm_num : (1 : ℚ) < 2)).mp (lt_of_le_of_lt h h2)
  omega

end F64

/-! ## Pole detection and evaluation -/

theorem tangent_of_undefined (libm_tan : F64 → F64) (angle : F64) (is_radians : Bool)
    (h : is_tangent_undefined (angle_rad_of angle is_radians) = true) :
    tangent libm_tan angle is_radians = .error (tangent_message angle is_radians) := by
  cases is_radians <;> simp_all [tangent, tangent_message]

theorem tangent_of_defined (libm_tan : F64 → F64) (angle : F64) (is_radians : Bool)
    (h : is_tangent_undefined (angle_rad_of angle is_radians) = false) :
    tangent libm_tan angle is_radians = .ok (tan libm_tan (angle_rad_of angle is_radians)) := by
  simp [tangent, h]

theorem cotangent_of_undefined (libm_tan : F64 → F64) (angle : F64) (is_radians : Bool)
    (h : is_cotangent_undefined (angle_rad_of angle is_radians) = true) :
    cotangent libm_tan angle is_radians = .error (cotangent_message angle is_radians) := by
  cases is_radians <;> simp_all [cotangent, cotangent_message]

theorem cotangent_of_defined (libm_tan : F64 → F64) (angle : F64) (is_radians : Bool)
    (h : is_cotangent_undefined (angle_rad_of angle is_radians) = false) :
    cotangent libm_tan angle is_radians =
      .ok (div (ofInt 1) (tan libm_tan (angle_rad_of angle is_radians))) := by
  simp [cotangent, h]

theorem isError_tangent (libm_tan : F64 → F64) (angle : F64) (is_radians : Bool) :
    isError (tangent libm_tan angle is_radians) =
      is_tangent_undefined (angle_rad_of angle is_radians) := by
  cases h : is_tangent_undefined (angle_rad_of angle is_radians)
  · rw [tangent_of_defined _ _ _ h]; rfl
  · rw [tangent_of_undefined _ _ _ h]; rfl

theorem isError_cotangent (libm_tan : F64 → F64) (angle : F64) (is_radians : Bool) :
    isError (cotangent libm_tan angle is_radians) =
      is_cotangent_undefined (angle_rad_of angle is_radians) := by
  cases h : is_cotangent_undefined (angle_rad_of angle is_radians)
  · rw [cotangent_of_defined _ _ _ h]; rfl
  · rw [cotangent_of_undefined _ _ _ h]; rfl

theorem tangent_cases (libm_tan : F64 → F64) (angle : F64) (is_radians : Bool) :
    tangent libm_tan angle is_radians =
      if is_tangent_undefined (angle_rad_of angle is_radians) then
        .error (tangent_message angle is_radians)
      else .ok (tan libm_tan (angle_rad_of angle is_radians)) := by
  cases h : is_tangent_undefined (angle_rad_of angle is_radians)
  · simp [tangent_of_defined _ _ _ h]
  · simp [tangent_of_undefined _ _ _ h]

theorem cotangent_cases (libm_tan : F64 → F64) (angle : F64) (is_radians : Bool) :
    cotangent libm_tan angle is_radians =
      if is_cotangent_undefined (angle_rad_of angle is_radians) then
        .error (cotangent_message angle is_radians)
      else .ok (div (ofInt 1) (tan libm_tan (angle_rad_of angle is_radians))) := by
  cases h : is_cotangent_undefined (angle_rad_of angle is_radians)
  · simp [cotangent_of_defined _ _ _ h]
  · simp [cotangent_of_undefined _ _ _ h]

/-- C1: `tangent` signals a domain error exactly when the sign-following
remainder `r = fmod(angle_rad, PI)` has `|r - PI/2| < 1e-10` or
`|r + PI/2| < 1e-10`, where `angle_rad` is the angle itself in radian mode and
`angle * PI / 180` in degree mode; in every other case it returns
`tan(angle_rad)`, unguarded. -/
theorem tangent_error_iff (libm_tan : F64 → F64) (angle : F64) (is_radians : Bool) :
    angle_rad_of angle true = angle ∧
    angle_rad_of angle false = div (mul angle PI) (ofInt 180) ∧
    (isError (tangent libm_tan angle is_radians) = true ↔
      (lt (fabs (sub (fmod (angle_rad_of angle is_radians) PI) (div PI (ofInt 2)))) tol = true ∨
       lt (fabs (add (fmod (angle_rad_of angle is_radians) PI) (div PI (ofInt 2)))) tol = true)) ∧
    (isError (tangent libm_tan angle is_radians) = true ∨
      tangent libm_tan angle is_radians = .ok (tan libm_tan (angle_rad_of angle is_radians))) := by
  refine ⟨rfl, rfl, ?_, ?_⟩
  · rw [isError_tangent]
    simp [is_tangent_undefined]
  · rw [isError_tangent]
    cases h : is_tangent_undefined (angle_rad_of angle is_radians)
    · exact Or.inr (tangent_of_defined _ _ _ h)
    · exact Or.inl rfl

/-- C2: `cotangent` signals a domain error exactly when the sign-following
remainder `r = fmod(angle_rad, PI)` has `|r| < 1e-10`, where `angle_rad` is the
angle itself in radian mode and `angle * PI / 180` in degree mode; in every
other case it returns `1 / tan(angle_rad)`. -/
theorem cotangent_error_iff (libm_tan : F64 → F64) (angle : F64) (is_radians : Bool) :
    angle_rad_of angle true = angle ∧
    angle_rad_of angle false = div (mul angle PI) (ofInt 180) ∧
    (isError (cotangent libm_tan angle is_radians) = true ↔
      lt (fabs (fmod (angle_rad_of angle is_radians) PI)) tol = true) ∧
    (isError (cotangent libm_tan angle is_radians) = true ∨
      cotangent libm_tan angle is_radians =
        .ok (div (ofInt 1) (tan libm_tan (angle_rad_of angle is_radians)))) := by
  refine ⟨rfl, rfl, ?_, ?_⟩
  · rw [isError_cotangent]
    simp [is_cotangent_undefined]
  · rw [isError_cotangent]
    cases h : is_cotangent_undefined (angle_rad_of angle is_radians)
    · exact Or.inr (cotangent_of_defined _ _ _ h)
    · exact Or.inl rfl

/-- C4 (the code at a multiple of 180 degrees): at 1620 degrees, that is
`180 * 9`, the remainder of the converted angle is just below `PI`, the check
does not fire and `cotangent` returns a number. -/
theorem cotangent_1620_degrees (libm_tan : F64 → F64) :
    ofInt 1620 = ofInt (180 * 9) ∧
    degrees_to_radians (ofInt 1620) = fin false 7958517471031994 (-48) ∧
    fmod (degrees_to_radians (ofInt 1620)) PI = fin false 7074237752028432 (-51) ∧
    PI = fin false 7074237752028440 (-51) ∧
    isError (cotangent libm_tan (ofInt 1620) false) = false ∧
    cotangent libm_tan (ofInt 1620) false =
      .ok (div (ofInt 1) (libm_tan (fin false 7958517471031994 (-48)))) := by
  have h : is_cotangent_undefined (angle_rad_of (ofInt 1620) false) = false := by decide!
  refine ⟨by decide!, by decide!, by decide!, by decide!, ?_, ?_⟩
  · rw [isError_cotangent, h]
  · rw [cotangent_of_defined _ _ _ h]
    have : angle_rad_of (ofInt 1620) false = fin false 7958517471031994 (-48) := by decide!
    rw [this, tan]

theorem PI_eq : PI = fin false 7074237752028440 (-51) := by decide

theorem ofInt_180_eq : ofInt 180 = fin false 6333186975989760 (-45) := by decide

theorem half_PI_eq : div PI (ofInt 2) = fin false 7074237752028440 (-52) := by decide!

theorem tol_eq : tol = fin false 7737125245533627 (-86) := by decide!

theorem ofInt_neg_nat (j : Nat) (hj : 0 < j) : ofInt (-(j : Int)) = neg (ofInt (j : Int)) := by
  unfold ofInt
  have h1 : decide (-(j : Int) < 0) = true := by
    have : -(j : Int) < 0 := by omega
    simpa using this
  have h2 : decide ((j : Int) < 0) = false := by
    simp
  rw [h1, h2, Int.natAbs_neg, ← roundQ_not]
  rfl

/-- C3 fails at `k = 237355`: at `90 + 180 * 237355 = 42723990` degrees the
converted angle is `0x1.c8cap-34` (about `1.04e-10`) away from `PI/2` modulo
`PI`, the check does not fire and `tangent` returns a number; likewise at
`k = -237356`, the negated angle. -/
theorem tangent_far_pole_not_rejected :
    (90 + 180 * 237355 : Int) = 42723990 ∧
    (90 + 180 * (-237356) : Int) = -42723990 ∧
    fabs (sub (fmod (degrees_to_radians (ofInt 42723990)) PI) (div PI (ofInt 2)))
      = fin false 8035918170554368 (-86) ∧
    tol = fin false 7737125245533627 (-86) ∧
    ∀ libm_tan : F64 → F64,
      isError (tangent libm_tan (ofInt 42723990) false) = false ∧
      isError (tangent libm_tan (ofInt (-42723990)) false) = false := by
  refine ⟨by norm_num, by norm_num, by decide!, by decide!, ?_⟩
  intro libm_tan
  rw [isError_tangent, isError_tangent]
  constructor <;> decide!

/-- C8: degree mode and radian mode agree through the one conversion
`degrees_to_radians d = d * PI / 180`: `tangent d deg` and
`tangent (d * PI / 180) rad` end the same way, likewise `cotangent`; and
`degrees_to_radians 0 = 0`, `degrees_to_radians 180 = PI`. -/
theorem degree_radian_agree (libm_tan : F64 → F64) (d : F64) :
    PI = ofDec 314159265358979323846 20 ∧
    degrees_to_radians d = div (mul d PI) (ofInt 180) ∧
    sameOutcome (tangent libm_tan d false) (tangent libm_tan (degrees_to_radians d) true) ∧
    sameOutcome (cotangent libm_tan d false) (cotangent libm_tan (degrees_to_radians d) true) ∧
    degrees_to_radians (ofInt 0) = ofInt 0 ∧
    degrees_to_radians (ofInt 180) = PI := by
  refine ⟨rfl, rfl, ?_, ?_, by decide!, by decide!⟩
  · rw [tangent_cases, tangent_cases]
    have : angle_rad_of d false = angle_rad_of (degrees_to_radians d) true := rfl
    rw [this]
    split_ifs <;> simp [sameOutcome]
  · rw [cotangent_cases, cotangent_cases]
    have : angle_rad_of d false = angle_rad_of (degrees_to_radians d) true := rfl
    rw [this]
    split_ifs <;> simp [sameOutcome]

/-- C9: a domain error of `tangent` or `cotangent` carries the angle as the
caller supplied it and names the excluded family in the caller's unit:
`π/2 + π*k` / `π*k` in radian mode, `90° + 180°*k` / `180°*k` in degree mode. -/
theorem error_message_in_caller_unit (libm_tan : F64 → F64) (angle : F64) :
    (isError (tangent libm_tan angle true) = false ∨
      tangent libm_tan angle true = .error
        [.str "Тангенс не определен для угла ", .to_string angle,
          .str " радиан (π/2 + π*k)"]) ∧
    (isError (tangent libm_tan angle false) = false ∨
      tangent libm_tan angle false = .error
        [.str "Тангенс не определен для угла ", .to_string angle,
          .str " градусов (90° + 180°*k)"]) ∧
    (isError (cotangent libm_tan angle true) = false ∨
      cotangent libm_tan angle true = .error
        [.str "Котангенс не определен для угла ", .to_string angle,
          .str " радиан (π*k)"]) ∧
    (isError (cotangent libm_tan angle false) = false ∨
      cotangent libm_tan angle false = .error
        [.str "Котангенс не определен для угла ", .to_string angle,
          .str " градусов (180°*k)"]) := by
  refine ⟨?_, ?_, ?_, ?_⟩
  · rw [isError_tangent]
    cases h : is_tangent_undefined (angle_rad_of angle true)
    · exact Or.inl rfl
    · exact Or.inr (tangent_of_undefined _ _ _ h)
  · rw [isError_tangent]
    cases h : is_tangent_undefined (angle_rad_of angle false)
    · exact Or.inl rfl
    · exact Or.inr (tangent_of_undefined _ _ _ h)
  · rw [isError_cotangent]
    cases h : is_cotangent_undefined (angle_rad_of angle true)
    · exact Or.inl rfl
    · exact Or.inr (cotangent_of_undefined _ _ _ h)
  · rw [isError_cotangent]
    cases h : is_cotangent_undefined (angle_rad_of angle false)
    · exact Or.inl rfl
    · exact Or.inr (cotangent_of_undefined _ _ _ h)

/-! ## Values at 45 degrees, negated angles, the product -/

theorem real_tan_near_one (x δ : ℝ) (h : |x - Real.pi / 4| ≤ δ) (hδ : δ ≤ 1 / 100) :
    |Real.tan x - 1| ≤ 4 * δ := by
  have hpi3 := Real.pi_gt_three
  have hpi4 := Real.pi_lt_d2
  obtain ⟨h1, h2⟩ := abs_le.mp h
  have hδ0 : 0 ≤ δ := le_trans (abs_nonneg _) h
  have hx0 : 0 ≤ x := by linarith
  have hx1 : x ≤ 4 / 5 := by linarith
  have hcos : 1 / 2 ≤ Real.cos x := by
    have := @Real.one_sub_sq_div_two_le_cos x
    nlinarith
  have hcpos : 0 < Real.cos x := by linarith
  have hsq : Real.sqrt 2 * Real.sqrt 2 = 2 := Real.mul_self_sqrt (by norm_num)
  have hs0 : 0 ≤ Real.sqrt 2 := Real.sqrt_nonneg 2
  have hs2 : Real.sqrt 2 ≤ 2 := by nlinarith
  have hsd : Real.sin (x - Real.pi / 4) = Real.sqrt 2 / 2 * (Real.sin x - Real.cos x) := by
    rw [Real.sin_sub, Real.cos_pi_div_four, Real.sin_pi_div_four]
    ring
  have hdiff : Real.sin x - Real.cos x = Real.sqrt 2 * Real.sin (x - Real.pi / 4) := by
    rw [hsd]
    have : Real.sqrt 2 * (Real.sqrt 2 / 2 * (Real.sin x - Real.cos x))
        = (Real.sqrt 2 * Real.sqrt 2) / 2 * (Real.sin x - Real.cos x) := by ring
    rw [this, hsq]
    ring
  have hsin : |Real.sin (x - Real.pi / 4)| ≤ δ := le_trans Real.abs_sin_le_abs h
  have htan : Real.tan x - 1 = (Real.sin x - Real.cos x) / Real.cos x := by
    rw [Real.tan_eq_sin_div_cos]
    field_simp
  rw [htan, hdiff, abs_div, abs_mul, abs_of_pos hcpos, abs_of_nonneg hs0, div_le_iff₀ hcpos]
  have h3 : Real.sqrt 2 * |Real.sin (x - Real.pi / 4)| ≤ 2 * δ :=
    mul_le_mul hs2 hsin (abs_nonneg _) (by norm_num)
  nlinarith

theorem real_tan_at_45 :
    |Real.tan (((toRat (fin false 7074237752028440 (-53)) : ℚ) : ℝ)) - 1| ≤ 1 / 10 ^ 15 := by
  have hx : ((toRat (fin false 7074237752028440 (-53)) : ℚ) : ℝ)
      = (7074237752028440 : ℝ) / 2 ^ 53 := by
    simp only [toRat_fin]
    norm_num
  rw [hx]
  have h1 := Real.pi_gt_d20
  have h2 := Real.pi_lt_d20
  have h := real_tan_near_one ((7074237752028440 : ℝ) / 2 ^ 53) (1 / (4 * 10 ^ 15)) (by
    rw [abs_le]
    constructor <;> norm_num at h1 h2 ⊢ <;> linarith) (by norm_num)
  refine le_trans h ?_
  norm_num

theorem angle_45_radians :
    angle_rad_of (ofInt 45) false = fin false 7074237752028440 (-53) := by decide!

theorem tangent_defined_at_45 :
    is_tangent_undefined (angle_rad_of (ofInt 45) false) = false := by decide!

theorem cotangent_defined_at_45 :
    is_cotangent_undefined (angle_rad_of (ofInt 45) false) = false := by decide!

theorem libm_value_near_one (libm_tan : F64 → F64)
    (hacc : TanAccurateAt libm_tan (fin false 7074237752028440 (-53)) (1 / 10 ^ 9)) :
    |toRat (libm_tan (fin false 7074237752028440 (-53))) - 1| ≤ 2 / 10 ^ 9 := by
  have h1 := hacc.2
  have h2 := real_tan_at_45
  have h3 : |((toRat (libm_tan (fin false 7074237752028440 (-53))) : ℚ) : ℝ) - 1|
      ≤ 2 / 10 ^ 9 := by
    have hε : (((1 / 10 ^ 9 : ℚ)) : ℝ) = 1 / 10 ^ 9 := by norm_num
    rw [hε] at h1
    obtain ⟨a1, a2⟩ := abs_le.mp h1
    obtain ⟨b1, b2⟩ := abs_le.mp h2
    rw [abs_le]
    constructor <;> norm_num at a1 a2 b1 b2 ⊢ <;> linarith
  have h4 : ((|toRat (libm_tan (fin false 7074237752028440 (-53))) - 1| : ℚ) : ℝ)
      ≤ ((2 / 10 ^ 9 : ℚ) : ℝ) := by
    push_cast
    exact h3
  exact_mod_cast h4

/-- C5 fails at `1e308` degrees: the conversion to radians overflows to
infinity, `fmod` yields NaN, neither check fires, and both functions return NaN;
the product is NaN, not 1. -/
theorem product_nan_at_1e308 :
    degrees_to_radians (ofInt (10 ^ 308)) = inf false ∧
    (∀ libm_tan : F64 → F64,
      tangent libm_tan (ofInt (10 ^ 308)) false = .ok nan ∧
      cotangent libm_tan (ofInt (10 ^ 308)) false = .ok nan) ∧
    mul nan nan = nan ∧ isFinite (mul nan nan) = false := by
  have h0 : angle_rad_of (ofInt (10 ^ 308)) false = inf false := by decide!
  have h1 : is_tangent_undefined (angle_rad_of (ofInt (10 ^ 308)) false) = false := by decide!
  have h2 : is_cotangent_undefined (angle_rad_of (ofInt (10 ^ 308)) false) = false := by decide!
  refine ⟨by decide!, ?_, rfl, rfl⟩
  intro libm_tan
  rw [tangent_of_defined _ _ _ h1, cotangent_of_defined _ _ _ h2, h0, ofInt_one]
  exact ⟨rfl, rfl⟩

/-- C5, amended: when neither function signals a domain error and
`tan(angle_rad)` is a finite double `t` with `2^(-1000) ≤ |t| ≤ 2^1000`,
`cotangent` returns the rounded reciprocal `1.0 / t` of that same `t`, and the
product `tangent * cotangent` is finite and within `2^(-52)` of 1. -/
theorem tangent_cotangent_product (libm_tan : F64 → F64) (angle : F64) (is_radians : Bool)
    (t c : F64)
    (ht : tangent libm_tan angle is_radians = .ok t)
    (hc : cotangent libm_tan angle is_radians = .ok c)
    (hfin : isFinite t = true)
    (hlo : (2 : ℚ) ^ (-1000 : Int) ≤ |toRat t|) (hhi : |toRat t| ≤ (2 : ℚ) ^ (1000 : Int)) :
    t = tan libm_tan (angle_rad_of angle is_radians) ∧ c = div (ofInt 1) t ∧
      isFinite (mul t c) = true ∧ |toRat (mul t c) - 1| ≤ (2 : ℚ) ^ (-52 : Int) := by
  have ht1 : t = tan libm_tan (angle_rad_of angle is_radians) := by
    rw [tangent_cases] at ht
    split_ifs at ht
    cases ht
    rfl
  have hc1 : c = div (ofInt 1) t := by
    rw [cotangent_cases] at hc
    split_ifs at hc
    cases hc
    rw [ht1]
  refine ⟨ht1, hc1, ?_⟩
  rw [hc1]
  cases t with
  | nan => simp [isFinite] at hfin
  | inf s => simp [isFinite] at hfin
  | fin s m e =>
    have habs : |toRat (fin s m e)| = (m : ℚ) * (2 : ℚ) ^ e := by
      rw [← toRat_fabs]
      simp [fabs, toRat_fin]
    rw [habs] at hlo hhi
    have hm : 0 < m := by
      rcases Nat.eq_zero_or_pos m with h0 | h0
      · rw [h0] at hlo
        have := two_pos_q (-1000)
        simp at hlo
        linarith
      · exact h0
    exact mul_div_one_near s m e hm hlo hhi

theorem tangent_cotangent_product_witness :
    |toRat (mul (ofInt 1) (div (ofInt 1) (ofInt 1))) - 1| ≤ (2 : ℚ) ^ (-52 : Int) :=
  (tangent_cotangent_product (fun _ => ofInt 1) (ofInt 45) false (ofInt 1)
    (div (ofInt 1) (ofInt 1))
    (by rw [tangent_of_defined _ _ _ tangent_defined_at_45, angle_45_radians]; rfl)
    (by rw [cotangent_of_defined _ _ _ cotangent_defined_at_45, angle_45_radians]; rfl)
    (by decide)
    (by rw [ofInt_one, toRat_fin]; norm_num [zpow_neg])
    (by rw [ofInt_one, toRat_fin]; norm_num [zpow_neg])).2.2.2

/-- C6: `tangent` at 45 degrees and at `PI/4` radians, and `cotangent` at 45
degrees, return a number, not a domain error; given that the math library's
tangent is within `1e-9` of the real tangent at the one argument passed, that
number is within `1e-6` of 1. -/
theorem evaluate_45_near_one (libm_tan : F64 → F64)
    (hacc : TanAccurateAt libm_tan (fin false 7074237752028440 (-53)) (1 / 10 ^ 9)) :
    degrees_to_radians (ofInt 45) = fin false 7074237752028440 (-53) ∧
    div PI (ofInt 4) = fin false 7074237752028440 (-53) ∧
    (∃ v, tangent libm_tan (ofInt 45) false = .ok v ∧ isFinite v = true ∧
      |toRat v - 1| ≤ 1 / 10 ^ 6) ∧
    (∃ v, tangent libm_tan (div PI (ofInt 4)) true = .ok v ∧ isFinite v = true ∧
      |toRat v - 1| ≤ 1 / 10 ^ 6) ∧
    (∃ v, cotangent libm_tan (ofInt 45) false = .ok v ∧ isFinite v = true ∧
      |toRat v - 1| ≤ 1 / 10 ^ 6) := by
  have hnear := libm_value_near_one libm_tan hacc
  have hfin := hacc.1
  have hrad : angle_rad_of (div PI (ofInt 4)) true = fin false 7074237752028440 (-53) := by
    decide!
  have hdef : is_tangent_undefined (angle_rad_of (div PI (ofInt 4)) true) = false := by
    decide!
  have hle : |toRat (libm_tan (fin false 7074237752028440 (-53))) - 1| ≤ 1 / 10 ^ 6 :=
    le_trans hnear (by norm_num)
  refine ⟨by decide!, by decide!, ?_, ?_, ?_⟩
  · refine ⟨libm_tan (fin false 7074237752028440 (-53)), ?_, hfin, hle⟩
    rw [tangent_of_defined _ _ _ tangent_defined_at_45, angle_45_radians]
    rfl
  · refine ⟨libm_tan (fin false 7074237752028440 (-53)), ?_, hfin, hle⟩
    rw [tangent_of_defined _ _ _ hdef, hrad]
    rfl
  · refine ⟨div (ofInt 1) (libm_tan (fin false 7074237752028440 (-53))), ?_, ?_⟩
    · rw [cotangent_of_defined _ _ _ cotangent_defined_at_45, angle_45_radians]
      rfl
    · generalize libm_tan (fin false 7074237752028440 (-53)) = t at hnear hfin
      cases t with
      | nan => simp [isFinite] at hfin
      | inf s => simp [isFinite] at hfin
      | fin s m e =>
        obtain ⟨a1, a2⟩ := abs_le.mp hnear
        have hpos : 0 < toRat (fin s m e) := by linarith
        have hval : toRat (fin s m e) = (m : ℚ) * (2 : ℚ) ^ e := by
          cases s
          · simp [toRat_fin]
          · exfalso
            have h0 : (0 : ℚ) ≤ (m : ℚ) * (2 : ℚ) ^ e := by
              have := two_pos_q e
              positivity
            rw [toRat_fin] at hpos
            simp only [if_true] at hpos
            linarith
        have hm : 0 < m := by
          rcases Nat.eq_zero_or_pos m with h0 | h0
          · rw [hval, h0] at hpos
            simp at hpos
          · exact h0
        have hs : s = false := by
          cases s
          · rfl
          · exfalso
            have h0 : (0 : ℚ) ≤ (m : ℚ) * (2 : ℚ) ^ e := by
              have := two_pos_q e
              positivity
            rw [toRat_fin] at hpos
            simp only [if_true] at hpos
            linarith
        subst hs
        rw [hval] at a1 a2
        have a1n : (999999998 : ℚ) / 1000000000 ≤ (m : ℚ) * (2 : ℚ) ^ e := by
          norm_num at a1
          linarith
        have a2n : (m : ℚ) * (2 : ℚ) ^ e ≤ (1000000002 : ℚ) / 1000000000 := by
          norm_num at a2
          linarith
        have hτ : (0 : ℚ) < (m : ℚ) * (2 : ℚ) ^ e := by linarith
        have hlo : (2 : ℚ) ^ (-1000 : Int) ≤ (m : ℚ) * (2 : ℚ) ^ e := by
          have h1 : (2 : ℚ) ^ (-1000 : Int) ≤ (2 : ℚ) ^ (-1 : Int) :=
            zpow_le_zpow_right₀ (by norm_num) (by norm_num)
          have h2 : (2 : ℚ) ^ (-1 : Int) = 1 / 2 := by norm_num
          rw [h2] at h1
          exact le_trans h1 (by linarith)
        have hhi : (m : ℚ) * (2 : ℚ) ^ e ≤ (2 : ℚ) ^ (1000 : Int) := by
          have h1 : (2 : ℚ) ^ (1 : Int) ≤ (2 : ℚ) ^ (1000 : Int) :=
            zpow_le_zpow_right₀ (by norm_num) (by norm_num)
          have h2 : (2 : ℚ) ^ (1 : Int) = 2 := by norm_num
          rw [h2] at h1
          exact le_trans (by linarith) h1
        obtain ⟨m1, E1, g1, _, _, _, g5⟩ := div_one_rel false m e hm hlo hhi
        rw [g1]
        refine ⟨rfl, ?_⟩
        rw [toRat_fin]
        simp only [Bool.false_eq_true, if_false, one_mul]
        have hu : (2 : ℚ) ^ (-53 : Int) = 1 / 9007199254740992 := by norm_num [zpow_neg]
        rw [hu] at g5
        have hr1 : 1 / ((m : ℚ) * (2 : ℚ) ^ e) ≤ (1000000003 : ℚ) / 1000000000 := by
          rw [div_le_iff₀ hτ]
          linarith
        have hr2 : (999999997 : ℚ) / 1000000000 ≤ 1 / ((m : ℚ) * (2 : ℚ) ^ e) := by
          rw [le_div_iff₀ hτ]
          linarith
        generalize 1 / ((m : ℚ) * (2 : ℚ) ^ e) = ρ at g5 hr1 hr2
        obtain ⟨g5a, g5b⟩ := abs_le.mp g5
        have hgoal : (1 : ℚ) / 10 ^ 6 = 1 / 1000000 := by norm_num
        rw [hgoal, abs_le]
        constructor <;> linarith

theorem evaluate_45_near_one_witness :
    ∃ v, cotangent unitTan (ofInt 45) false = .ok v ∧ isFinite v = true ∧
      |toRat v - 1| ≤ 1 / 10 ^ 6 :=
  (evaluate_45_near_one unitTan (by
    refine ⟨by decide, ?_⟩
    have h := real_tan_at_45
    have h1 : ((toRat (unitTan (fin false 7074237752028440 (-53))) : ℚ) : ℝ) = 1 := by
      simp only [unitTan, toRat_fin]
      norm_num [zpow_neg]
    have hε : (((1 / 10 ^ 9 : ℚ)) : ℝ) = 1 / 10 ^ 9 := by norm_num
    rw [h1, hε, abs_sub_comm]
    exact le_trans h (by norm_num))).2.2.2.2

theorem parseArgs_append_aux (stod : String → Option F64) (suf : List String) :
    ∀ (n : Nat) (pre : List String) (st0 st : Args), pre.length ≤ n →
      parseArgs stod pre st0 = .done st →
      parseArgs stod (pre ++ suf) st0 = parseArgs stod suf st := by
  intro n
  induction n with
  | zero =>
    intro pre st0 st hlen h
    have : pre = [] := List.length_eq_zero.mp (Nat.le_zero.mp hlen)
    subst this
    simp only [parseArgs] at h
    cases h
    rfl
  | succ n ih =>
    intro pre st0 st hlen h
    rcases pre with _ | ⟨arg, _ | ⟨v, rest⟩⟩
    · simp only [parseArgs] at h
      cases h
      rfl
    · simp only [parseArgs] at h
      split_ifs at h with h1 h2 h3
      cases hs : stod arg with
      | none => simp [hs] at h
      | some x =>
        simp only [hs] at h
        cases h
        cases suf <;> simp [parseArgs, h1, h2, h3, hs]
    · simp only [List.length_cons] at hlen
      simp only [parseArgs] at h
      simp only [List.cons_append, parseArgs]
      split_ifs at h ⊢ with h1 h2 h3 h4
      · exact ih rest _ st (by omega) h
      · exact ih rest _ st (by omega) h
      · cases hs : stod arg with
        | none => simp [hs] at h
        | some x =>
          simp only [hs] at h ⊢
          exact ih (v :: rest) _ st (by simp only [List.length_cons]; omega) h

theorem parseArgs_append (stod : String → Option F64) (pre suf : List String) (st0 st : Args)
    (h : parseArgs stod pre st0 = .done st) :
    parseArgs stod (pre ++ suf) st0 = parseArgs stod suf st :=
  parseArgs_append_aux stod suf pre.length pre st0 st (Nat.le_refl _) h

/-- C10 fails on `-o -h`: the help flag is taken as the value of `-o`, no help
is printed and the exit code is 1. -/
theorem help_flag_consumed_as_value :
    "-h" ∈ ["-o", "-h"] ∧
    ∀ (libm_tan : F64 → F64) (stod : String → Option F64),
      main libm_tan stod ["-o", "-h"] =
        ⟨1, [], [.str "Ошибка: требуется ровно 1 операнд, получено ", .size 0, .str "\n"]⟩ := by
  refine ⟨by decide, ?_⟩
  intro libm_tan stod
  simp [main, parseArgs, Args.init, evaluate]

/-- C10, amended: when the argument loop gets through the arguments before a
`-h` or `--help` without returning (and so without taking the flag as the
value of a preceding `-o` or `-m`), `main` prints the help text, and nothing
else, and exits with code 0. -/
theorem help_flag_reached (libm_tan : F64 → F64) (stod : String → Option F64)
    (pre rest : List String) (flag : String) (st : Args)
    (hflag : flag = "-h" ∨ flag = "--help")
    (hpre : parseArgs stod pre Args.init = .done st) :
    main libm_tan stod (pre ++ flag :: rest) = ⟨0, print_help, []⟩ := by
  have h1 : parseArgs stod (pre ++ flag :: rest) Args.init = .exit ⟨0, print_help, []⟩ := by
    rw [parseArgs_append stod pre (flag :: rest) Args.init st hpre]
    rcases hflag with rfl | rfl <;> cases rest <;> simp [parseArgs]
  have h2 : ¬ ((pre ++ flag :: rest).length + 1 < 2) := by
    simp only [List.length_append, List.length_cons]
    omega
  simp only [main, h2, if_false, h1]

theorem help_flag_reached_witness :
    main (fun x => x) (fun _ => some (ofInt 45)) (["-o", "tangent", "45"] ++ "--help" :: ["-m", "bad"])
      = ⟨0, print_help, []⟩ :=
  help_flag_reached (fun x => x) (fun _ => some (ofInt 45)) ["-o", "tangent", "45"] ["-m", "bad"]
    "--help" ⟨"tangent", "deg", [ofInt 45]⟩ (Or.inr rfl) (by simp [parseArgs, Args.init])


/-! ## Disjoint pole sets, proximity in radian mode -/

namespace F64

/-- Rounding error of a sum of two finite doubles whose exact sum is nonzero
and below `2^(b+1)` in absolute value. -/
theorem add_fin_near (s : Bool) (m : Nat) (e : Int) (t : Bool) (n : Nat) (f : Int) (b : Int)
    (hne : toRat (fin s m e) + toRat (fin t n f) ≠ 0)
    (hv : |toRat (fin s m e) + toRat (fin t n f)| < (2 : ℚ) ^ (b + 1)) (hb : b ≤ 1022) :
    ∃ (s1 : Bool) (m1 : Nat) (E1 : Int), add (fin s m e) (fin t n f) = fin s1 m1 E1 ∧
      |(m1 : ℚ) * (2 : ℚ) ^ E1 - abs (toRat (fin s m e) + toRat (fin t n f))|
        ≤ (2 : ℚ) ^ (max (b - 53) (-1075)) := by
  set E : Int := min e f with hE
  set i : Int := sInt s (m * 2 ^ (e - E).toNat) + sInt t (n * 2 ^ (f - E).toNat) with hi
  have hval : toRat (fin s m e) + toRat (fin t n f) = (i : ℚ) * (2 : ℚ) ^ E := by
    rw [toRat_aligned s m e E (min_le_left _ _), toRat_aligned t n f E (min_le_right _ _), hi]
    push_cast
    ring
  have hEp := two_pos_q E
  have h0 : i ≠ 0 := by
    intro h
    apply hne
    rw [hval, h]
    simp
  have habs : (i.natAbs : ℚ) = |(i : ℚ)| := by
    rw [Nat.cast_natAbs, Int.cast_abs]
  have hq : qval i.natAbs 1 E = |toRat (fin s m e) + toRat (fin t n f)| := by
    unfold qval
    rw [hval, abs_mul, abs_of_pos hEp, habs]
    simp
  simp only [add]
  rw [← hE, ← hi]
  simp only [h0, if_false]
  rw [← hq] at hv ⊢
  obtain ⟨m1, E1, g1, _, _, _, g5⟩ :=
    roundQ_near (decide (i < 0)) i.natAbs 1 E (Int.natAbs_pos.mpr h0) Nat.one_pos b hv hb
  exact ⟨decide (i < 0), m1, E1, g1, g5⟩

end F64

theorem tol_value : toRat (fin false 7737125245533627 (-86))
    = 7737125245533627 / 77371252455336267181195264 := by
  rw [toRat_fin]
  norm_num [zpow_neg]

theorem half_PI_value (t : Bool) : toRat (fin t 7074237752028440 (-52))
    = (if t then -1 else 1) * (7074237752028440 / 4503599627370496) := by
  rw [toRat_fin]
  norm_num [zpow_neg]

/-- A remainder within the tolerance of 0 is not within the tolerance of
`PI/2` or of `-PI/2`. -/
theorem near_zero_not_near_half_PI (r : F64) (t : Bool)
    (h : lt (fabs r) (fin false 7737125245533627 (-86)) = true) :
    lt (fabs (add r (fin t 7074237752028440 (-52)))) (fin false 7737125245533627 (-86))
      = false := by
  cases r with
  | nan => simp [fabs, lt] at h
  | inf s => simp [fabs, lt] at h
  | fin s m e =>
    have hf : fabs (fin s m e) = fin false m e := rfl
    rw [hf, lt_fin_iff, tol_value] at h
    have hr : toRat (fin false m e) = |toRat (fin s m e)| := by
      rw [← toRat_fabs, hf]
    rw [hr] at h
    obtain ⟨h1, h2⟩ := abs_lt.mp h
    have hP := half_PI_value t
    have hu : (2 : ℚ) ^ (max ((0 : Int) - 53) (-1075)) = 1 / 9007199254740992 := by
      have : max ((0 : Int) - 53) (-1075) = -53 := by norm_num
      rw [this]
      norm_num [zpow_neg]
    have h21 : (2 : ℚ) ^ ((0 : Int) + 1) = 2 := by norm_num
    cases t
    · simp only [Bool.false_eq_true, if_false, one_mul] at hP
      have hpos : 0 < toRat (fin s m e) + toRat (fin false 7074237752028440 (-52)) := by
        rw [hP]; linarith
      obtain ⟨s1, m1, E1, g1, g5⟩ :=
        add_fin_near s m e false 7074237752028440 (-52) 0 hpos.ne'
          (by rw [abs_of_pos hpos, hP, h21]; linarith) (by norm_num)
      rw [g1]
      have hf1 : fabs (fin s1 m1 E1) = fin false m1 E1 := rfl
      rw [hf1]
      rw [abs_of_pos hpos, hP, hu] at g5
      obtain ⟨g5a, g5b⟩ := abs_le.mp g5
      have hnot : ¬ (toRat (fin false m1 E1) < toRat (fin false 7737125245533627 (-86))) := by
        rw [tol_value, toRat_fin]
        simp only [Bool.false_eq_true, if_false, one_mul]
        linarith
      cases hlt : lt (fin false m1 E1) (fin false 7737125245533627 (-86))
      · rfl
      · exact absurd ((lt_fin_iff _ _ _ _ _ _).mp hlt) hnot
    · simp only [if_true] at hP
      have hneg : toRat (fin s m e) + toRat (fin true 7074237752028440 (-52)) < 0 := by
        rw [hP]; linarith
      obtain ⟨s1, m1, E1, g1, g5⟩ :=
        add_fin_near s m e true 7074237752028440 (-52) 0 hneg.ne
          (by rw [abs_of_neg hneg, hP, h21]; linarith) (by norm_num)
      rw [g1]
      have hf1 : fabs (fin s1 m1 E1) = fin false m1 E1 := rfl
      rw [hf1]
      rw [abs_of_neg hneg, hP, hu] at g5
      obtain ⟨g5a, g5b⟩ := abs_le.mp g5
      have hnot : ¬ (toRat (fin false m1 E1) < toRat (fin false 7737125245533627 (-86))) := by
        rw [tol_value, toRat_fin]
        simp only [Bool.false_eq_true, if_false, one_mul]
        linarith
      cases hlt : lt (fin false m1 E1) (fin false 7737125245533627 (-86))
      · rfl
      · exact absurd ((lt_fin_iff _ _ _ _ _ _).mp hlt) hnot

/-- C18: the two pole sets are disjoint: no radian angle makes both
`is_tangent_undefined` and `is_cotangent_undefined` true, so for every angle and
unit at least one of `tangent` and `cotangent` returns a number. -/
theorem pole_sets_disjoint (libm_tan : F64 → F64) (angle_rad : F64) (angle : F64)
    (is_radians : Bool) :
    (is_tangent_undefined angle_rad && is_cotangent_undefined angle_rad) = false ∧
    (isError (tangent libm_tan angle is_radians) = false ∨
      isError (cotangent libm_tan angle is_radians) = false) := by
  have key : ∀ x : F64, (is_tangent_undefined x && is_cotangent_undefined x) = false := by
    intro x
    cases hc : is_cotangent_undefined x
    · simp
    · have hc2 : lt (fabs (fmod x PI)) (fin false 7737125245533627 (-86)) = true := by
        unfold is_cotangent_undefined at hc
        rw [tol_eq] at hc
        exact hc
      have h1 := near_zero_not_near_half_PI (fmod x PI) true hc2
      have h2 := near_zero_not_near_half_PI (fmod x PI) false hc2
      have ht : is_tangent_undefined x = false := by
        unfold is_tangent_undefined
        simp only []
        rw [half_PI_eq, tol_eq]
        have hsub : sub (fmod x PI) (fin false 7074237752028440 (-52))
            = add (fmod x PI) (fin true 7074237752028440 (-52)) := rfl
        rw [hsub, h1, h2]
        rfl
      rw [ht]
      rfl
  refine ⟨key angle_rad, ?_⟩
  rw [isError_tangent, isError_cotangent]
  have := key (angle_rad_of angle is_radians)
  cases h1 : is_tangent_undefined (angle_rad_of angle is_radians)
  · exact Or.inl rfl
  · rw [h1] at this
    simp at this
    exact Or.inr this

namespace F64

/-- The remainder computed by `fmod` is exact also for a large dividend: only
the smaller of the two exponents has to be in range. -/
theorem fmod_exact_min (s : Bool) (m : Nat) (e : Int) (t : Bool) (n : Nat) (f : Int)
    (hm : m < 2 ^ 53) (hn : 0 < n) (hn53 : n < 2 ^ 53)
    (he : -1074 ≤ e) (hf : -1074 ≤ f) (hmin : min e f ≤ 970) (k : Nat)
    (hk1 : (k : ℚ) * ((n : ℚ) * (2 : ℚ) ^ f) ≤ (m : ℚ) * (2 : ℚ) ^ e)
    (hk2 : (m : ℚ) * (2 : ℚ) ^ e < ((k : ℚ) + 1) * ((n : ℚ) * (2 : ℚ) ^ f)) :
    ∃ (m1 : Nat) (E1 : Int), fmod (fin s m e) (fin t n f) = fin s m1 E1 ∧
      m1 < 2 ^ 53 ∧ -1074 ≤ E1 ∧
      (m1 : ℚ) * (2 : ℚ) ^ E1 = (m : ℚ) * (2 : ℚ) ^ e - (k : ℚ) * ((n : ℚ) * (2 : ℚ) ^ f) := by
  set E : Int := min e f with hE
  set X : Nat := m * 2 ^ (e - E).toNat with hX
  set Y : Nat := n * 2 ^ (f - E).toNat with hY
  have hEp := two_pos_q E
  have hXq : (X : ℚ) * (2 : ℚ) ^ E = (m : ℚ) * (2 : ℚ) ^ e := by
    rw [hX, Nat.cast_mul, mul_assoc, pow_toNat_mul e E (min_le_left _ _)]
  have hYq : (Y : ℚ) * (2 : ℚ) ^ E = (n : ℚ) * (2 : ℚ) ^ f := by
    rw [hY, Nat.cast_mul, mul_assoc, pow_toNat_mul f E (min_le_right _ _)]
  have hkY : k * Y ≤ X := by
    rw [← hXq, ← hYq, ← mul_assoc, mul_le_mul_right hEp] at hk1
    exact_mod_cast hk1
  have hkY2 : X < (k + 1) * Y := by
    rw [← hXq, ← hYq, ← mul_assoc, mul_lt_mul_right hEp] at hk2
    exact_mod_cast hk2
  have hYpos : 0 < Y := by positivity
  have hmod : X % Y = X - k * Y := by
    have h1 : X = (X - k * Y) + k * Y := by omega
    have h2 : X - k * Y < Y := by
      have : (k + 1) * Y = k * Y + Y := by ring
      omega
    conv_lhs => rw [h1]
    rw [Nat.add_mul_mod_self_right, Nat.mod_eq_of_lt h2]
  have hRq : ((X % Y : Nat) : ℚ) = (X : ℚ) - (k : ℚ) * (Y : ℚ) := by
    rw [hmod, Nat.cast_sub hkY]
    push_cast
    ring
  have hR53 : X % Y < 2 ^ 53 := by
    rcases le_total e f with h | h
    · have hEe : E = e := min_eq_left h
      have hXm : X = m := by rw [hX, hEe]; simp
      have : X % Y ≤ X := Nat.mod_le _ _
      omega
    · have hEf : E = f := min_eq_right h
      have hYn : Y = n := by rw [hY, hEf]; simp
      have : X % Y < Y := Nat.mod_lt _ hYpos
      omega
  have hn0 : n ≠ 0 := by omega
  have hE1 : -1074 ≤ E := le_min he hf
  have hE2 : E ≤ 970 := hmin
  simp only [fmod, hn0, if_false]
  rw [← hE, ← hX, ← hY]
  have hgoal : (m : ℚ) * (2 : ℚ) ^ e - (k : ℚ) * ((n : ℚ) * (2 : ℚ) ^ f)
      = ((X % Y : Nat) : ℚ) * (2 : ℚ) ^ E := by
    rw [hRq, ← hXq, ← hYq]
    ring
  rw [hgoal]
  by_cases h0 : X % Y = 0
  · rw [h0]
    refine ⟨0, -1074, ?_, by norm_num, le_refl _, by simp⟩
    simp [roundQ, zero]
  · obtain ⟨m1, E1, h1, h2, h3, _, h5⟩ :=
      roundQ_exact s (X % Y) E (Nat.pos_of_ne_zero h0) hR53 hE1 hE2
    exact ⟨m1, E1, h1, h2, h3, h5⟩

end F64

/-- A non-negative canonical double within the tolerance of `(n + 1/2) * PI` is
treated as a pole of the tangent. -/
theorem tangent_undefined_near (m : Nat) (e : Int) (hm : m < 2 ^ 53) (he : -1074 ≤ e)
    (n : Nat) (d : ℚ)
    (hd : |d| < 7737125245533627 / 77371252455336267181195264)
    (hv : (m : ℚ) * (2 : ℚ) ^ e
      = ((n : ℚ) + 1 / 2) * (7074237752028440 / 2251799813685248) + d) :
    is_tangent_undefined (fin false m e) = true := by
  obtain ⟨hd1, hd2⟩ := abs_lt.mp hd
  have hn0 : (0 : ℚ) ≤ (n : ℚ) := by positivity
  have hP51 : (2 : ℚ) ^ (-51 : Int) = 1 / 2251799813685248 := by norm_num [zpow_neg]
  have hP52 : (2 : ℚ) ^ (-52 : Int) = 1 / 4503599627370496 := by norm_num [zpow_neg]
  obtain ⟨m3, E3, d1, d2, _, d5⟩ :=
    fmod_exact_min false m e false 7074237752028440 (-51) hm (by norm_num) (by norm_num)
      he (by norm_num) (le_trans (min_le_right _ _) (by norm_num)) n
      (by rw [hv, hP51]; push_cast; linarith)
      (by rw [hv, hP51]; push_cast; linarith)
  rw [hv, hP51] at d5
  push_cast at d5
  have hr : (m3 : ℚ) * (2 : ℚ) ^ E3 = 7074237752028440 / 4503599627370496 + d := by
    rw [d5]
    ring
  have hE3 : -52 ≤ E3 := by
    have h1 : (2 : ℚ) ^ (0 : Int) ≤ (m3 : ℚ) * (2 : ℚ) ^ E3 := by
      rw [hr]
      norm_num
      linarith
    have := exp_gt_of_value_ge m3 E3 0 d2 h1
    omega
  have hmin : min E3 (-52) = -52 := min_eq_right hE3
  have hta : toRat (fin false m3 E3) = 7074237752028440 / 4503599627370496 + d := by
    rw [toRat_fin]
    simp only [Bool.false_eq_true, if_false, one_mul]
    exact hr
  have htb : toRat (fin true 7074237752028440 (-52)) = -(7074237752028440 / 4503599627370496) := by
    rw [toRat_fin, hP52]
    norm_num
  obtain ⟨s4, m4, E4, e1, _, _, e4⟩ :=
    add_exact false m3 E3 true 7074237752028440 (-52)
      (by rw [hmin]; norm_num) (by rw [hmin]; norm_num)
      (by
        rw [hmin, hta, htb, hP52, abs_lt]
        constructor <;> norm_num <;> linarith)
  rw [hta, htb] at e4
  have hlt : lt (fabs (sub (fmod (fin false m e) PI) (div PI (ofInt 2)))) tol = true := by
    rw [half_PI_eq, PI_eq, d1, tol_eq]
    have : sub (fin false m3 E3) (fin false 7074237752028440 (-52))
        = add (fin false m3 E3) (fin true 7074237752028440 (-52)) := rfl
    rw [this, e1]
    have hf : fabs (fin s4 m4 E4) = fin false m4 E4 := rfl
    rw [hf, lt_fin_iff]
    have hval : toRat (fin false m4 E4) = |toRat (fin s4 m4 E4)| := by
      rw [← toRat_fabs, hf]
    rw [hval, e4, tol_value, abs_lt]
    constructor <;> linarith
  unfold is_tangent_undefined
  simp only []
  rw [hlt]
  rfl

theorem PI_value : toRat PI = 7074237752028440 / 2251799813685248 := by
  rw [PI_eq, toRat_fin]
  norm_num [zpow_neg]

theorem half_PI_value_pos : toRat (div PI (ofInt 2)) = 7074237752028440 / 4503599627370496 := by
  rw [half_PI_eq, toRat_fin]
  norm_num [zpow_neg]

/-- C16: proximity detection for tangent covers both sides of every asymptote:
a double whose value is `PI/2 + PI*k + d` for an integer `k` and an offset
`|d| < 1e-10` (`PI` being the program's constant) is rejected by `tangent` in
radian mode. -/
theorem tangent_both_sides (libm_tan : F64 → F64) (x : F64) (k : Int) (d : ℚ)
    (hx : isDouble x = true) (hd : |d| < 1 / 10 ^ 10)
    (hval : toRat x = toRat (div PI (ofInt 2)) + (k : ℚ) * toRat PI + d) :
    isError (tangent libm_tan x true) = true := by
  rw [isError_tangent]
  have hrad : angle_rad_of x true = x := rfl
  rw [hrad]
  rw [half_PI_value_pos, PI_value] at hval
  have hd' : |d| < 1 / 10000000000 := by
    have : (1 : ℚ) / 10 ^ 10 = 1 / 10000000000 := by norm_num
    rw [this] at hd
    exact hd
  obtain ⟨hd1, hd2⟩ := abs_lt.mp hd'
  have hcases : (0 : ℚ) ≤ (k : ℚ) ∨ (k : ℚ) ≤ -1 := by
    rcases le_or_lt 0 k with h | h
    · exact Or.inl (by exact_mod_cast h)
    · have : k ≤ -1 := by omega
      exact Or.inr (by exact_mod_cast this)
  have hnz : toRat x ≠ 0 := by
    rw [hval]
    rcases hcases with h | h
    · have : (0 : ℚ) < 7074237752028440 / 4503599627370496
          + (k : ℚ) * (7074237752028440 / 2251799813685248) + d := by linarith
      exact this.ne'
    · have : 7074237752028440 / 4503599627370496
          + (k : ℚ) * (7074237752028440 / 2251799813685248) + d < (0 : ℚ) := by linarith
      exact this.ne
  cases x with
  | nan => exact absurd rfl hnz
  | inf s => exact absurd rfl hnz
  | fin s m e =>
    have hcanon : m < 2 ^ 53 ∧ -1074 ≤ e := by
      simp only [isDouble, decide_eq_true_eq] at hx
      exact ⟨hx.1, hx.2.1⟩
    have hmag : (0 : ℚ) ≤ (m : ℚ) * (2 : ℚ) ^ e := by
      have := two_pos_q e
      positivity
    have htol : |d| < 7737125245533627 / 77371252455336267181195264 :=
      lt_trans hd' (by norm_num)
    have htol' : |-d| < 7737125245533627 / 77371252455336267181195264 := by
      rw [abs_neg]
      exact htol
    cases s
    · rw [toRat_fin] at hval
      simp only [Bool.false_eq_true, if_false, one_mul] at hval
      have hk0 : 0 ≤ k := by
        rcases hcases with h | h
        · exact_mod_cast h
        · exfalso
          linarith
      obtain ⟨n, rfl⟩ := Int.eq_ofNat_of_zero_le hk0
      apply tangent_undefined_near m e hcanon.1 hcanon.2 n d htol
      rw [hval]
      push_cast
      ring
    · rw [toRat_fin] at hval
      simp only [if_true] at hval
      have hk1 : k ≤ -1 := by
        rcases hcases with h | h
        · exfalso
          linarith
        · exact_mod_cast h
      obtain ⟨n, hn⟩ : ∃ n : Nat, k = -((n : Int) + 1) := ⟨(-k - 1).toNat, by omega⟩
      have hneg : fin true m e = neg (fin false m e) := rfl
      rw [hneg, is_tangent_undefined_neg]
      apply tangent_undefined_near m e hcanon.1 hcanon.2 n (-d) htol'
      have hkq : (k : ℚ) = -((n : ℚ) + 1) := by
        rw [hn]
        push_cast
        ring
      rw [hkq] at hval
      linarith

theorem tangent_both_sides_witness :
    isError (tangent unitTan (fin false 7074237752032536 (-52)) true) = true :=
  tangent_both_sides unitTan (fin false 7074237752032536 (-52)) 0 (1 / 2 ^ 40) (by decide)
    (by norm_num [abs_of_pos])
    (by rw [half_PI_value_pos, PI_value, toRat_fin]; norm_num [zpow_neg])

/-- Tangent poles in degree mode while `(90 + 180 * k) * PI` stays below `2^27`:
the product is off by at most `2^-27`, the quotient by at most `2^-34`, so the
converted angle is within `2^-27 / 180 + 2^-34 < 1e-10` of `(k + 1/2) * PI`. -/
theorem tangent_pole_degrees_below (k : Nat) (hk : k ≤ 237348) :
    is_tangent_undefined (degrees_to_radians (ofInt ((90 + 180 * k : Nat) : Int))) = true := by
  have hkq : (k : ℚ) ≤ 237348 := by exact_mod_cast hk
  have hk0 : (0 : ℚ) ≤ (k : ℚ) := by positivity
  have hP51 : (2 : ℚ) ^ (-51 : Int) = 1 / 2251799813685248 := by norm_num [zpow_neg]
  have h45 : (2 : ℚ) ^ (-45 : Int) = 1 / 35184372088832 := by norm_num [zpow_neg]
  have h27 : (2 : ℚ) ^ ((26 : Int) + 1) = 134217728 := by norm_num
  have h20 : (2 : ℚ) ^ ((19 : Int) + 1) = 1048576 := by norm_num
  have hu27 : (2 : ℚ) ^ (max ((26 : Int) - 53) (-1075)) = 1 / 134217728 := by
    have : max ((26 : Int) - 53) (-1075) = -27 := by norm_num
    rw [this]
    norm_num [zpow_neg]
  have hu34 : (2 : ℚ) ^ (max ((19 : Int) - 53) (-1075)) = 1 / 17179869184 := by
    have : max ((19 : Int) - 53) (-1075) = -34 := by norm_num
    rw [this]
    norm_num [zpow_neg]
  obtain ⟨m0, E0, a1, _, _, _, a5⟩ :=
    ofInt_nat_exact (90 + 180 * k) (by omega) (by norm_num; omega)
  have hi : ((90 + 180 * k : Nat) : ℚ) = 90 + 180 * (k : ℚ) := by push_cast; ring
  rw [hi] at a5
  have hm0 : 0 < m0 := pos_of_value_pos m0 E0 (by rw [a5]; positivity)
  have hprod : (m0 : ℚ) * (2 : ℚ) ^ E0 * ((7074237752028440 : Nat) * (2 : ℚ) ^ (-51 : Int))
      = (90 + 180 * (k : ℚ)) * (7074237752028440 / 2251799813685248) := by
    rw [a5, hP51]
    push_cast
    ring
  obtain ⟨m1, E1, b1, _, _, _, b5⟩ :=
    mul_fin_near false m0 E0 false 7074237752028440 (-51) hm0 (by norm_num) 26
      (by rw [hprod, h27]; linarith) (by norm_num)
  rw [hprod, hu27] at b5
  obtain ⟨b5a, b5b⟩ := abs_le.mp b5
  have hy1 : 0 < (m1 : ℚ) * (2 : ℚ) ^ E1 := by linarith
  have hm1 : 0 < m1 := pos_of_value_pos m1 E1 hy1
  have hquot : (m1 : ℚ) * (2 : ℚ) ^ E1 / ((6333186975989760 : Nat) * (2 : ℚ) ^ (-45 : Int))
      = (m1 : ℚ) * (2 : ℚ) ^ E1 / 180 := by
    rw [h45]
    push_cast
    norm_num
  obtain ⟨m2, E2, c1, c2, c3, _, c5⟩ :=
    div_fin_near false m1 E1 false 6333186975989760 (-45) hm1 (by norm_num) 19
      (by rw [hquot, h20]; linarith) (by norm_num)
  rw [hquot, hu34] at c5
  obtain ⟨c5a, c5b⟩ := abs_le.mp c5
  have hrad : degrees_to_radians (ofInt ((90 + 180 * k : Nat) : Int)) = fin false m2 E2 := by
    unfold degrees_to_radians
    rw [a1, PI_eq, b1, ofInt_180_eq]
    exact c1
  rw [hrad]
  apply tangent_undefined_near m2 E2 c2 c3 k
    ((m2 : ℚ) * (2 : ℚ) ^ E2 - ((k : ℚ) + 1 / 2) * (7074237752028440 / 2251799813685248))
  · rw [abs_lt]
    constructor <;> linarith
  · ring

/-- Tangent poles in degree mode for the six values of `k` between the range of
the error bound and the first pole that is missed, by evaluation. -/
theorem tangent_pole_degrees_top (k : Nat) (h1 : 237349 ≤ k) (h2 : k ≤ 237354) :
    is_tangent_undefined (degrees_to_radians (ofInt ((90 + 180 * k : Nat) : Int))) = true := by
  interval_cases k <;> decide!

/-- C3, amended: for every integer `k` with `-237355 ≤ k ≤ 237354` (angles up
to 42 723 810 degrees in absolute value, every `k` between the two nearest
poles that are missed, `k = 237355` and `k = -237356`) tangent in degree mode
at `90 + 180 * k` signals a domain error; in particular 90 and -90 degrees are
rejected. -/
theorem tangent_poles_degrees (libm_tan : F64 → F64) (k : Int)
    (hlo : -237355 ≤ k) (hhi : k ≤ 237354) :
    isError (tangent libm_tan (ofInt (90 + 180 * k)) false) = true ∧
    isError (tangent libm_tan (ofInt 90) false) = true ∧
    isError (tangent libm_tan (ofInt (-90)) false) = true := by
  have hnat : ∀ n : Nat, n ≤ 237354 →
      is_tangent_undefined (degrees_to_radians (ofInt ((90 + 180 * n : Nat) : Int))) = true := by
    intro n hn
    rcases Nat.lt_or_ge 237348 n with h | h
    · exact tangent_pole_degrees_top n h hn
    · exact tangent_pole_degrees_below n h
  have hgen : ∀ k : Int, -237355 ≤ k → k ≤ 237354 →
      isError (tangent libm_tan (ofInt (90 + 180 * k)) false) = true := by
    intro k hlo hhi
    rw [isError_tangent]
    rcases le_or_lt 0 k with h0 | h0
    · obtain ⟨n, rfl⟩ := Int.eq_ofNat_of_zero_le h0
      have hn : n ≤ 237354 := by omega
      have hcast : 90 + 180 * (n : Int) = ((90 + 180 * n : Nat) : Int) := by push_cast; ring
      rw [hcast]
      exact hnat n hn
    · obtain ⟨n, hn⟩ : ∃ n : Nat, k = -((n : Int) + 1) := ⟨(-k - 1).toNat, by omega⟩
      have hn2 : n ≤ 237354 := by omega
      have hcast : 90 + 180 * k = -((90 + 180 * n : Nat) : Int) := by
        rw [hn]
        push_cast
        ring
      rw [hcast, ofInt_neg_nat _ (by omega)]
      have : angle_rad_of (neg (ofInt ((90 + 180 * n : Nat) : Int))) false
          = neg (angle_rad_of (ofInt ((90 + 180 * n : Nat) : Int)) false) :=
        angle_rad_of_neg _ _
      rw [this, is_tangent_undefined_neg]
      exact hnat n hn2
  refine ⟨hgen k hlo hhi, ?_, ?_⟩
  · have := hgen 0 (by norm_num) (by norm_num)
    simpa using this
  · have := hgen (-1) (by norm_num) (by norm_num)
    simpa using this

theorem tangent_poles_degrees_witness :
    (-237355 : Int) ≤ 237354 ∧ (237354 : Int) ≤ 237354 ∧
    isError (tangent unitTan (ofInt (90 + 180 * 237354)) false) = true :=
  ⟨by decide, by decide,
    (tangent_poles_degrees unitTan 237354 (by decide) (by decide)).1⟩

/-- C17 (the code just beside a nonzero multiple of `PI`): at the double
`PI - 2^-37`, which is `PI*1 + d` with `|d| < 1e-10`, the remainder is the angle
itself, `fabs(normalized) < 1e-10` is false and `cotangent` in radian mode
returns a number; the same at `-(PI - 2^-37)`, slightly above `-PI`. -/
theorem cotangent_beside_PI (libm_tan : F64 → F64) :
    isDouble (fin false 7074237752012056 (-51)) = true ∧
    toRat (fin false 7074237752012056 (-51)) = toRat PI * 1 + (-(1 / 2 ^ 37)) ∧
    toRat (fin true 7074237752012056 (-51)) = toRat PI * (-1) + 1 / 2 ^ 37 ∧
    |(-(1 / 2 ^ 37) : ℚ)| < 1 / 10 ^ 10 ∧
    fmod (fin false 7074237752012056 (-51)) PI = fin false 7074237752012056 (-51) ∧
    isError (cotangent libm_tan (fin false 7074237752012056 (-51)) true) = false ∧
    isError (cotangent libm_tan (fin true 7074237752012056 (-51)) true) = false ∧
    cotangent libm_tan (fin false 7074237752012056 (-51)) true =
      .ok (div (ofInt 1) (libm_tan (fin false 7074237752012056 (-51)))) := by
  have h1 : is_cotangent_undefined (angle_rad_of (fin false 7074237752012056 (-51)) true)
      = false := by decide!
  have h2 : is_cotangent_undefined (angle_rad_of (fin true 7074237752012056 (-51)) true)
      = false := by decide!
  refine ⟨by decide, ?_, ?_, ?_, by decide!, ?_, ?_, ?_⟩
  · rw [PI_value, toRat_fin]
    norm_num [zpow_neg]
  · rw [PI_value, toRat_fin]
    norm_num [zpow_neg]
  · norm_num [abs_of_pos]
  · rw [isError_cotangent, h1]
  · rw [isError_cotangent, h2]
  · rw [cotangent_of_defined _ _ _ h1]
    rfl

/-! ## The command line: operands, operation, mode -/

theorem args_induction (P : List String → Prop) (h0 : P [])
    (h1 : ∀ a, P [a])
    (h2 : ∀ a v rest, P rest → P (v :: rest) → P (a :: v :: rest)) : ∀ l, P l := by
  have key : ∀ (n : Nat) (l : List String), l.length ≤ n → P l := by
    intro n
    induction n with
    | zero =>
      intro l hl
      have : l = [] := List.length_eq_zero.mp (Nat.le_zero.mp hl)
      rw [this]
      exact h0
    | succ n ih =>
      intro l hl
      rcases l with _ | ⟨a, _ | ⟨v, rest⟩⟩
      · exact h0
      · exact h1 a
      · simp only [List.length_cons] at hl
        exact h2 a v rest (ih rest (by omega)) (ih (v :: rest) (by simp only [List.length_cons]; omega))
  intro l
  exact key l.length l (Nat.le_refl _)

theorem main_cons (libm_tan : F64 → F64) (stod : String → Option F64) (a : String)
    (rest : List String) :
    main libm_tan stod (a :: rest) =
      match parseArgs stod (a :: rest) Args.init with
      | .exit o => o
      | .done st => evaluate libm_tan st := by
  have : ¬ ((a :: rest).length + 1 < 2) := by
    simp only [List.length_cons]
    omega
  unfold main
  exact (if_neg this).trans (by cases parseArgs stod (a :: rest) Args.init <;> rfl)

theorem main_of_exit (libm_tan : F64 → F64) (stod : String → Option F64) (args : List String)
    (o : Outcome) (h : parseArgs stod args Args.init = .exit o) :
    main libm_tan stod args = o := by
  cases args with
  | nil => simp [parseArgs] at h
  | cons a rest => rw [main_cons, h]

theorem main_of_done (libm_tan : F64 → F64) (stod : String → Option F64) (args : List String)
    (st : Args) (hne : args ≠ []) (h : parseArgs stod args Args.init = .done st) :
    main libm_tan stod args = evaluate libm_tan st := by
  cases args with
  | nil => exact absurd rfl hne
  | cons a rest => rw [main_cons, h]

theorem evaluate_tangent (libm_tan : F64 → F64) (st : Args) (angle : F64)
    (hops : st.operands = [angle]) (hop : st.operation = "tangent") :
    evaluate libm_tan st = report "tan(" angle (decide (st.mode = "rad"))
      (tangent libm_tan angle (decide (st.mode = "rad"))) := by
  unfold evaluate
  rw [hops]
  simp only [hop]
  have : ¬ ("tangent" = "") := by decide
  simp only [this, if_false, if_true]
  unfold report
  cases tangent libm_tan angle (decide (st.mode = "rad")) <;> rfl

theorem evaluate_cotangent (libm_tan : F64 → F64) (st : Args) (angle : F64)
    (hops : st.operands = [angle]) (hop : st.operation = "cotangent") :
    evaluate libm_tan st = report "cot(" angle (decide (st.mode = "rad"))
      (cotangent libm_tan angle (decide (st.mode = "rad"))) := by
  unfold evaluate
  rw [hops]
  simp only [hop]
  have h1 : ¬ ("cotangent" = "") := by decide
  have h2 : ¬ ("cotangent" = "tangent") := by decide
  simp only [h1, h2, if_false, if_true]
  unfold report
  cases cotangent libm_tan angle (decide (st.mode = "rad")) <;> rfl

/-- After a complete run of the argument loop, `mode` is the last value read
for a mode flag (the initial value when there was none), and every value read
was `deg` or `rad`. -/
theorem parseArgs_mode (stod : String → Option F64) :
    ∀ (args : List String) (st0 st : Args), parseArgs stod args st0 = .done st →
      st.mode = (modeValues stod args).getLastD st0.mode ∧
      ∀ v ∈ modeValues stod args, v = "deg" ∨ v = "rad" := by
  intro args
  induction args using args_induction with
  | h0 =>
    intro st0 st h
    simp only [parseArgs] at h
    cases h
    simp [modeValues]
  | h1 a =>
    intro st0 st h
    simp only [parseArgs] at h
    split_ifs at h with c1 c2 c3
    cases hs : stod a with
    | none => simp [hs] at h
    | some x =>
      simp only [hs, parseArgs] at h
      cases h
      simp [modeValues, c1, c2, c3, hs]
  | h2 a v rest ih1 ih2 =>
    intro st0 st h
    simp only [parseArgs] at h
    split_ifs at h with c1 c2 c3 c4
    · obtain ⟨g1, g2⟩ := ih1 _ st h
      simp only [modeValues, c1, if_true]
      exact ⟨g1, g2⟩
    · obtain ⟨g1, g2⟩ := ih1 _ st h
      simp only [modeValues, c1, c2, c3, if_true, if_false]
      refine ⟨?_, ?_⟩
      · rw [List.getLastD_cons]
        exact g1
      · intro w hw
        rcases List.mem_cons.mp hw with rfl | hw
        · by_contra hbad
          push_neg at hbad
          exact c3 hbad
        · exact g2 w hw
    · cases hs : stod a with
      | none => simp [hs] at h
      | some x =>
        simp only [hs] at h
        obtain ⟨g1, g2⟩ := ih2 _ st h
        simp only [modeValues, c1, c2, c4, hs, if_false]
        exact ⟨g1, g2⟩

theorem modeValues_nil_of_no_flag (stod : String → Option F64) :
    ∀ (args : List String), "-m" ∉ args → "--mode" ∉ args → modeValues stod args = [] := by
  intro args
  induction args using args_induction with
  | h0 => intro _ _; rfl
  | h1 a =>
    intro _ _
    simp only [modeValues]
    split_ifs
    · rfl
    · rfl
    · rfl
    · cases stod a <;> rfl
  | h2 a v rest ih1 ih2 =>
    intro hm1 hm2
    have ha1 : a ≠ "-m" := fun h => hm1 (by simp [h])
    have ha2 : a ≠ "--mode" := fun h => hm2 (by simp [h])
    have hr1 : "-m" ∉ rest := fun h => hm1 (by simp [h])
    have hr2 : "--mode" ∉ rest := fun h => hm2 (by simp [h])
    have hv1 : "-m" ∉ v :: rest := fun h => hm1 (List.mem_cons_of_mem _ h)
    have hv2 : "--mode" ∉ v :: rest := fun h => hm2 (List.mem_cons_of_mem _ h)
    have hnm : ¬ (a = "-m" ∨ a = "--mode") := by
      intro h
      rcases h with h | h
      · exact ha1 h
      · exact ha2 h
    simp only [modeValues, hnm, if_false]
    split_ifs
    · exact ih1 hr1 hr2
    · rfl
    · cases stod a with
      | none => rfl
      | some x => exact ih2 hv1 hv2

/-- A value other than `deg` and `rad` read for a mode flag makes the loop
return with exit code 1. -/
theorem parseArgs_bad_mode (stod : String → Option F64) :
    ∀ (args : List String) (st0 : Args),
      (∃ v ∈ modeValues stod args, v ≠ "deg" ∧ v ≠ "rad") →
      ∃ o, parseArgs stod args st0 = .exit o ∧ o.code = 1 := by
  intro args
  induction args using args_induction with
  | h0 =>
    intro st0 h
    simp [modeValues] at h
  | h1 a =>
    intro st0 h
    exfalso
    obtain ⟨v, hv, _⟩ := h
    simp only [modeValues] at hv
    split_ifs at hv
    · simp at hv
    · simp at hv
    · simp at hv
    · cases hs : stod a <;> simp [hs, modeValues] at hv
  | h2 a v rest ih1 ih2 =>
    intro st0 h
    obtain ⟨w, hw, hbad⟩ := h
    simp only [modeValues] at hw
    simp only [parseArgs]
    split_ifs at hw ⊢ with c1 c2 c3 c4
    · exact ih1 _ ⟨w, hw, hbad⟩
    · exact ⟨_, rfl, rfl⟩
    · rcases List.mem_cons.mp hw with rfl | hw
      · exfalso
        exact c3 hbad
      · exact ih1 _ ⟨w, hw, hbad⟩
    · simp at hw
    · cases hs : stod a with
      | none => simp [hs] at hw
      | some x =>
        simp only [hs] at hw ⊢
        exact ih2 _ ⟨w, hw, hbad⟩

theorem parseArgs_given_bad_mode (stod : String → Option F64) :
    ∀ (args : List String) (st0 : Args),
      (∃ v ∈ givenModeValues args, v ≠ "deg" ∧ v ≠ "rad") →
      ∃ o, parseArgs stod args st0 = .exit o ∧ o.code = 1 := by
  intro args
  induction args using args_induction with
  | h0 =>
    intro st0 h
    simp [givenModeValues] at h
  | h1 a =>
    intro st0 h
    exfalso
    obtain ⟨v, hv, _⟩ := h
    simp only [givenModeValues] at hv
    split_ifs at hv <;> simp at hv
  | h2 a v rest ih1 ih2 =>
    intro st0 h
    obtain ⟨w, hw, hbad⟩ := h
    simp only [givenModeValues] at hw
    simp only [parseArgs]
    split_ifs at hw ⊢ with c1 c2 c3 c4
    · exact ih1 _ ⟨w, hw, hbad⟩
    · exact ⟨_, rfl, rfl⟩
    · rcases List.mem_cons.mp hw with rfl | hw
      · exfalso
        exact c3 hbad
      · exact ih1 _ ⟨w, hw, hbad⟩
    · simp at hw
    · cases hs : stod a with
      | none => exact ⟨_, rfl, rfl⟩
      | some x =>
        simp only []
        exact ih2 _ ⟨w, hw, hbad⟩

theorem modeValues_eq_given_of_done (stod : String → Option F64) :
    ∀ (args : List String) (st0 st : Args), parseArgs stod args st0 = .done st →
      modeValues stod args = givenModeValues args := by
  intro args
  induction args using args_induction with
  | h0 =>
    intro st0 st _
    rfl
  | h1 a =>
    intro st0 st h
    simp only [parseArgs] at h
    simp only [modeValues, givenModeValues]
    split_ifs at h ⊢ with c1 c2 c3
    cases hs : stod a with
    | none => simp [hs] at h
    | some x => rfl
  | h2 a v rest ih1 ih2 =>
    intro st0 st h
    simp only [parseArgs] at h
    simp only [modeValues, givenModeValues]
    split_ifs at h ⊢ with c1 c2 c3 c4
    · exact ih1 _ _ h
    · rw [ih1 _ _ h]
    · cases hs : stod a with
      | none => simp [hs] at h
      | some x =>
        simp only [hs] at h ⊢
        exact ih2 _ _ h

theorem args_ne_nil_of_operand (stod : String → Option F64) (args : List String) (st : Args)
    (angle : F64) (hp : parseArgs stod args Args.init = .done st) (hops : st.operands = [angle]) :
    args ≠ [] := by
  intro h
  subst h
  simp only [parseArgs] at hp
  cases hp
  simp [Args.init] at hops

/-- C13: when the argument loop completes with exactly one operand and the
operation `tangent` or `cotangent` (the mode is then `deg` or `rad`), `main`
exits with code 1 if the evaluator signals a domain error and with code 0
otherwise; the error is caught and reported on the error stream, and then
nothing at all is written to standard output. -/
theorem domain_error_reported (libm_tan : F64 → F64) (stod : String → Option F64)
    (args : List String) (st : Args) (angle : F64)
    (hp : parseArgs stod args Args.init = .done st) (hops : st.operands = [angle])
    (hop : st.operation = "tangent" ∨ st.operation = "cotangent") :
    (st.mode = "deg" ∨ st.mode = "rad") ∧
    (∀ what, (if st.operation = "tangent" then tangent libm_tan angle (decide (st.mode = "rad"))
        else cotangent libm_tan angle (decide (st.mode = "rad"))) = .error what →
      main libm_tan stod args = ⟨1, [], [.str "Ошибка вычисления: "] ++ what ++ [.str "\n"]⟩) ∧
    (∀ result, (if st.operation = "tangent" then tangent libm_tan angle (decide (st.mode = "rad"))
        else cotangent libm_tan angle (decide (st.mode = "rad"))) = .ok result →
      (main libm_tan stod args).code = 0 ∧ (main libm_tan stod args).err = [] ∧
      (main libm_tan stod args).out =
        [.str (if st.operation = "tangent" then "tan(" else "cot("), .num angle,
         .str (if st.mode = "rad" then " rad" else "°"), .str ") = ", .fixed6 result,
         .str "\n"]) := by
  have hne := args_ne_nil_of_operand stod args st angle hp hops
  have hmain := main_of_done libm_tan stod args st hne hp
  obtain ⟨g1, g2⟩ := parseArgs_mode stod args Args.init st hp
  have hmode : st.mode = "deg" ∨ st.mode = "rad" := by
    rw [g1]
    rcases hl : modeValues stod args with _ | ⟨b, l⟩
    · exact Or.inl rfl
    · rw [List.getLastD_cons]
      have hmem : (l.getLastD b) ∈ modeValues stod args := by
        rw [hl]
        rcases l.eq_nil_or_concat with rfl | ⟨l2, c, rfl⟩
        · simp
        · simp [List.getLastD_concat]
      exact g2 _ hmem
  refine ⟨hmode, ?_, ?_⟩
  · intro what hw
    rcases hop with hop | hop
    · rw [hmain, evaluate_tangent libm_tan st angle hops hop]
      simp only [hop, if_true] at hw
      rw [hw]
      rfl
    · have hnt : st.operation ≠ "tangent" := by rw [hop]; decide
      rw [hmain, evaluate_cotangent libm_tan st angle hops hop]
      simp only [hnt, if_false] at hw
      rw [hw]
      rfl
  · intro result hr
    rcases hop with hop | hop
    · rw [hmain, evaluate_tangent libm_tan st angle hops hop]
      simp only [hop, if_true] at hr
      rw [hr]
      refine ⟨rfl, rfl, ?_⟩
      simp [report, hop]
    · have hnt : st.operation ≠ "tangent" := by rw [hop]; decide
      rw [hmain, evaluate_cotangent libm_tan st angle hops hop]
      simp only [hnt, if_false] at hr
      rw [hr]
      refine ⟨rfl, rfl, ?_⟩
      simp [report, hop]

theorem domain_error_reported_witness :
    main unitTan (fun _ => some (ofInt 90)) ["-o", "tangent", "90"] =
      ⟨1, [], [.str "Ошибка вычисления: "] ++ tangent_message (ofInt 90) false ++ [.str "\n"]⟩ :=
  (domain_error_reported unitTan (fun _ => some (ofInt 90)) ["-o", "tangent", "90"]
    ⟨"tangent", "deg", [ofInt 90]⟩ (ofInt 90) (by simp [parseArgs, Args.init]) rfl
    (Or.inl rfl)).2.1 (tangent_message (ofInt 90) false)
    (by
      have h : is_tangent_undefined (angle_rad_of (ofInt 90) false) = true := by decide!
      have hd : decide (("deg" : String) = "rad") = false := by decide
      simp only [if_true, hd]
      exact tangent_of_undefined unitTan (ofInt 90) false h)

/-- C14 (the code on a number followed by letters): `std::stod` converts the
longest numeric beginning of its argument and does not throw, so with
`stod "45abc" = 45.0` the run `-o tangent 45abc` evaluates the tangent of 45
degrees, prints the result line and exits with code 0. -/
theorem trailing_letters_accepted (libm_tan : F64 → F64) (stod : String → Option F64)
    (h : stod "45abc" = some (ofInt 45)) :
    main libm_tan stod ["-o", "tangent", "45abc"] =
      ⟨0, [.str "tan(", .num (ofInt 45), .str "°", .str ") = ",
           .fixed6 (libm_tan (fin false 7074237752028440 (-53))), .str "\n"], []⟩ := by
  have hp : parseArgs stod ["-o", "tangent", "45abc"] Args.init
      = .done ⟨"tangent", "deg", [ofInt 45]⟩ := by
    simp [parseArgs, Args.init, h]
  rw [main_of_done libm_tan stod _ _ (by simp) hp,
    evaluate_tangent libm_tan _ (ofInt 45) rfl rfl]
  have hd : decide (("deg" : String) = "rad") = false := by decide
  simp only [hd]
  rw [tangent_of_defined _ _ _ tangent_defined_at_45, angle_45_radians]
  rfl

theorem trailing_letters_accepted_witness :
    (main unitTan (fun _ => some (ofInt 45)) ["-o", "tangent", "45abc"]).code = 0 :=
  congrArg Outcome.code (trailing_letters_accepted unitTan (fun _ => some (ofInt 45)) rfl)

/-- C15 fails on `-h -m bad`: the loop returns at the help flag, the mode value
`bad` is never read and `main` exits with code 0. -/
theorem mode_value_after_help :
    "bad" ≠ "deg" ∧ "bad" ≠ "rad" ∧
    ∀ (libm_tan : F64 → F64) (stod : String → Option F64),
      main libm_tan stod ["-h", "-m", "bad"] = ⟨0, print_help, []⟩ ∧
      (main libm_tan stod ["-h", "-m", "bad"]).code ≠ 1 := by
  refine ⟨by decide, by decide, ?_⟩
  intro libm_tan stod
  have h : main libm_tan stod ["-h", "-m", "bad"] = ⟨0, print_help, []⟩ := by
    simp [main, parseArgs, Args.init]
  rw [h]
  exact ⟨rfl, by decide⟩

/-- C15, amended: the mode defaults to degrees.  After a complete run of the
argument loop with one operand, `mode` is the last value read for
`-m`/`--mode`, or `deg` when none was read; without any `-m`/`--mode` argument
it is `deg`; the angle is evaluated in radians exactly when that value is
`rad`; and the values read are all the values given.  A value other than `deg`
and `rad` read for the flag makes `main` exit with code 1, and so does every
such value given before the loop reaches a help flag. -/
theorem mode_selects_unit (libm_tan : F64 → F64) (stod : String → Option F64)
    (args : List String) :
    (∀ st angle, parseArgs stod args Args.init = .done st → st.operands = [angle] →
      st.mode = (modeValues stod args).getLastD "deg" ∧
      ("-m" ∉ args → "--mode" ∉ args → st.mode = "deg") ∧
      (st.operation = "tangent" → main libm_tan stod args =
        report "tan(" angle (decide ((modeValues stod args).getLastD "deg" = "rad"))
          (tangent libm_tan angle (decide ((modeValues stod args).getLastD "deg" = "rad")))) ∧
      (st.operation = "cotangent" → main libm_tan stod args =
        report "cot(" angle (decide ((modeValues stod args).getLastD "deg" = "rad"))
          (cotangent libm_tan angle (decide ((modeValues stod args).getLastD "deg" = "rad")))) ∧
      modeValues stod args = givenModeValues args) ∧
    ((∃ v ∈ modeValues stod args, v ≠ "deg" ∧ v ≠ "rad") →
      (main libm_tan stod args).code = 1) ∧
    ((∃ v ∈ givenModeValues args, v ≠ "deg" ∧ v ≠ "rad") →
      (main libm_tan stod args).code = 1) := by
  refine ⟨?_, ?_, ?_⟩
  · intro st angle hp hops
    have hne := args_ne_nil_of_operand stod args st angle hp hops
    have hmain := main_of_done libm_tan stod args st hne hp
    obtain ⟨g1, _⟩ := parseArgs_mode stod args Args.init st hp
    have g1' : st.mode = (modeValues stod args).getLastD "deg" := g1
    refine ⟨g1', ?_, ?_, ?_, modeValues_eq_given_of_done stod args Args.init st hp⟩
    · intro h1 h2
      rw [g1', modeValues_nil_of_no_flag stod args h1 h2]
      rfl
    · intro hop
      rw [hmain, evaluate_tangent libm_tan st angle hops hop, g1']
    · intro hop
      rw [hmain, evaluate_cotangent libm_tan st angle hops hop, g1']
  · intro hbad
    obtain ⟨o, ho, hc⟩ := parseArgs_bad_mode stod args Args.init hbad
    rw [main_of_exit libm_tan stod args o ho]
    exact hc
  · intro hbad
    obtain ⟨o, ho, hc⟩ := parseArgs_given_bad_mode stod args Args.init hbad
    rw [main_of_exit libm_tan stod args o ho]
    exact hc

theorem mode_selects_unit_witness :
    main unitTan (fun _ => some (ofInt 45)) ["-m", "rad", "-o", "tangent", "45", "-m", "deg"] =
      report "tan(" (ofInt 45) false (tangent unitTan (ofInt 45) false) :=
  ((mode_selects_unit unitTan (fun _ => some (ofInt 45))
    ["-m", "rad", "-o", "tangent", "45", "-m", "deg"]).1
    ⟨"tangent", "deg", [ofInt 45]⟩ (ofInt 45) (by simp [parseArgs, Args.init]) rfl).2.2.1 rfl

end TxtIntr
